import Mathlib

/-!
Verification development for the log-structured key-value store in
`src/courses/rust/projects/project-2-dummy/src/kv.rs`.

Modelling conventions (shallow embedding):
* Keys and values are Rust `String`s; they are represented here by their
  UTF-8 byte sequences (`List Nat`).  `String::from_utf8(..).unwrap()` and
  `read_to_string` are therefore the identity on this representation.
* File contents are byte lists; the per-generation reader/writer handles all
  alias the same on-disk file, so the store carries one `files` map keyed by
  generation plus the set `readers` of generations with open handles.
* The writer handle is always positioned at end-of-file (it is opened on a
  fresh empty file and only ever written sequentially), so
  `seek(SeekFrom::Current(0))` is the length of the active file.
* `u32`/`u64` casts are modelled with `% 2^32` / `% 2^64`; machine integers
  are `Nat` otherwise.
* A Rust panic (a failing `unwrap`) is modelled by `Option.none`.
* The replay loop of `open` is modelled with explicit fuel
  (`content.length + 1`), which is provably sufficient because every
  successful iteration advances the position by at least 16 bytes.
-/

namespace KvProof

abbrev Bytes := List Nat

/-- Little-endian encoding of `n` into `w` bytes (`to_le_bytes`). -/
def toLE : Nat → Nat → Bytes
  | 0, _ => []
  | w + 1, n => n % 256 :: toLE w (n / 256)

/-- Little-endian decoding of a byte list (`read_u64` / `read_u32`). -/
def fromLE : Bytes → Nat :=
  List.foldr (fun b acc => b + 256 * acc) 0

/-- In-memory index entry: `struct DataIndex { n, pos, len, timestamp }`. -/
structure DataIndex where
  n : Nat
  pos : Nat
  len : Nat
  timestamp : Nat
deriving DecidableEq, Repr

/-- Error type of the crate as used by `kv.rs` (`KvsError::KeyNotFound`). -/
inductive KvsError where
  | KeyNotFound
deriving DecidableEq, Repr

/-- Lookup in the generation-keyed file table. -/
def lookupF : List (Nat × Bytes) → Nat → Option Bytes
  | [], _ => none
  | (g, c) :: rest, n => if g = n then some c else lookupF rest n

/-- Insert-or-replace in the file table (`HashMap::insert` semantics). -/
def updateF : List (Nat × Bytes) → Nat → Bytes → List (Nat × Bytes)
  | [], n, c => [(n, c)]
  | (g, c0) :: rest, n, c => if g = n then (n, c) :: rest else (g, c0) :: updateF rest n c

/-- Create a file if absent (`OpenOptions::create(true)` without truncate). -/
def createF (fs : List (Nat × Bytes)) (n : Nat) : List (Nat × Bytes) :=
  match lookupF fs n with
  | some _ => fs
  | none => fs ++ [(n, [])]

/-- Delete a file (`fs::remove_file`). -/
def eraseF : List (Nat × Bytes) → Nat → List (Nat × Bytes)
  | [], _ => []
  | (g, c) :: rest, n => if g = n then rest else (g, c) :: eraseF rest n

/-- Lookup in the key-indexed map (`BTreeMap::get`). -/
def lookupIdx : List (Bytes × DataIndex) → Bytes → Option DataIndex
  | [], _ => none
  | (k0, d) :: rest, k => if k0 = k then some d else lookupIdx rest k

/-- Insert-or-replace in the index (`BTreeMap::insert`); the Rust call also
returns the previous entry, which callers obtain here via `lookupIdx` first. -/
def insertIdx : List (Bytes × DataIndex) → Bytes → DataIndex → List (Bytes × DataIndex)
  | [], k, d => [(k, d)]
  | (k0, d0) :: rest, k, d => if k0 = k then (k, d) :: rest else (k0, d0) :: insertIdx rest k d

/-- Remove from the index (`BTreeMap::remove`). -/
def eraseIdx : List (Bytes × DataIndex) → Bytes → List (Bytes × DataIndex)
  | [], _ => []
  | (k0, d0) :: rest, k => if k0 = k then rest else (k0, d0) :: eraseIdx rest k

/-- Insert a generation into the reader-handle key set
(`HashMap::insert` on `readers`, keys only). -/
def readersInsert (r : List Nat) (n : Nat) : List Nat :=
  if n ∈ r then r else r ++ [n]

/-- The store: `struct KvStore { path, nth, writer, readers, indexes, uncompacted }`;
`path` is implicit and the file contents behind the handles live in `files`. -/
structure KvStore where
  nth : Nat
  readers : List Nat
  indexes : List (Bytes × DataIndex)
  files : List (Nat × Bytes)
  uncompacted : Nat
deriving DecidableEq, Repr

/-- `const COMPACTION_THRESHOLD: u64 = 1024 * 1024;` (declared in `kv.rs`,
never referenced by any code path). -/
def COMPACTION_THRESHOLD : Nat := 1024 * 1024

/-- Positioned write of 8 zero bytes over part of a file (the byte-level
effect of `remove_item`: `seek(Start(pos)); write_u64(0)`). -/
def overwriteAt (c : Bytes) (pos : Nat) (b : Bytes) : Bytes :=
  c.take pos ++ b ++ c.drop (pos + b.length)

/-- `fn remove_item(f, pos)` applied through the reader handle of
generation `n`: zero the 8-byte timestamp at `pos` of that file. -/
def remove_item (fs : List (Nat × Bytes)) (n : Nat) (pos : Nat) : List (Nat × Bytes) :=
  match lookupF fs n with
  | some c => updateF fs n (overwriteAt c pos (toLE 8 0))
  | none => fs

/-- The byte layout `|timestamp u64|ksize u32|vsize u32|key|value|` written
by `KvStore::set`. -/
def recordBytes (t : Nat) (k v : Bytes) : Bytes :=
  toLE 8 t ++ toLE 4 k.length ++ toLE 4 v.length ++ k ++ v

/-- `fn read_item(n, f)`: sequential decode of one record at position `pos`
of file content `c`; `none` models a failing read (`Err` via `?`).
Reading fails when fewer than 16 header bytes remain or the key bytes run
past end of file; the value is only skipped (`seek(Current(vsize))`), which
succeeds even past end of file.  `16 + ksize + vsize` is `u32` arithmetic.
Convention: the key is kept as its bytes, so the
`String::from_utf8(key).unwrap()` panic on a non-UTF-8 key is not modelled
and replay succeeds on a superset of the directories the program accepts;
an invariant proved over every state reachable through this model therefore
holds a fortiori of the program, and the claims that quantify over keys do
so at API level, where a Rust `String` key is valid UTF-8 and decoding it
back is the identity. -/
def read_item (n : Nat) (c : Bytes) (pos : Nat) : Option ((Bytes × DataIndex) × Nat) :=
  if pos + 16 ≤ c.length then
    let t := fromLE ((c.drop pos).take 8)
    let ksize := fromLE ((c.drop (pos + 8)).take 4)
    let vsize := fromLE ((c.drop (pos + 12)).take 4)
    if pos + 16 + ksize ≤ c.length then
      some (((c.drop (pos + 16)).take ksize,
             ⟨n, pos, (16 + ksize + vsize) % 2 ^ 32, t⟩),
            pos + 16 + ksize + vsize)
    else none
  else none

/-- `pub fn set(&mut self, key, value)`; `t` is the value of `unix_time()`.
Appends the record to the active file, inserts the new index entry, and if an
old entry existed adds its length to `uncompacted` and (when a reader handle
for its generation exists) zeroes its on-disk timestamp. -/
def KvStore.set (s : KvStore) (k v : Bytes) (t : Nat) : KvStore :=
  let c := (lookupF s.files s.nth).getD []
  let curpos := c.length
  let files1 := updateF s.files s.nth (c ++ recordBytes t k v)
  let len := (16 + (k.length + v.length) % 2 ^ 32) % 2 ^ 32
  let d : DataIndex := ⟨s.nth, curpos, len, t⟩
  match lookupIdx s.indexes k with
  | none => { s with files := files1, indexes := insertIdx s.indexes k d }
  | some old =>
      { s with
        files := if old.n ∈ s.readers then remove_item files1 old.n old.pos else files1,
        indexes := insertIdx s.indexes k d,
        uncompacted := s.uncompacted + old.len }

/-- `pub fn get(&mut self, key)`. Returns `Err(KeyNotFound)` on a miss; on a
hit maps over the reader handle (absent handle gives `Ok(None)`), seeks to
`pos + 12`, reads `vsize`, skips `len - 16 - vsize` key bytes and reads the
value.  `none` models the panicking `read_u32` past end of file.
Convention: the value bytes are returned as read (the identity decode); the
on-disk value of a value set through the API is the UTF-8 of a Rust
`String`, for which `read_to_string` is that identity.  `KvStore.get_utf8`
below drops the convention and models the `read_to_string(&mut s).unwrap()`
validation itself, which panics on stored value bytes that are not valid
UTF-8 (reachable, because replay skips value bytes unvalidated), and the
checked `u32` subtraction `len - 16 - vsize`. -/
def KvStore.get (s : KvStore) (k : Bytes) : Option (Except KvsError (Option Bytes)) :=
  match lookupIdx s.indexes k with
  | none => some (.error .KeyNotFound)
  | some vv =>
      if vv.n ∈ s.readers then
        let c := (lookupF s.files vv.n).getD []
        if vv.pos + 16 ≤ c.length then
          let vsize := fromLE ((c.drop (vv.pos + 12)).take 4)
          let ksize := vv.len - 16 - vsize
          some (.ok (some ((c.drop (vv.pos + 16 + ksize)).take vsize)))
        else none
      else some (.ok none)

/-- Continuation byte `0x80 ..= 0xBF` of a UTF-8 sequence. -/
def isCont (b : Nat) : Bool := 128 ≤ b && b ≤ 191

/-- Validity of a byte sequence as UTF-8 (what `str::from_utf8` and
`read_to_string` check): shortest encodings only, no surrogates, code
points at most `U+10FFFF`. -/
def isUTF8 : Bytes → Bool
  | [] => true
  | b :: rest =>
      if b ≤ 127 then isUTF8 rest
      else
        match rest with
        | [] => false
        | c1 :: rest1 =>
            if 194 ≤ b && b ≤ 223 then isCont c1 && isUTF8 rest1
            else
              match rest1 with
              | [] => false
              | c2 :: rest2 =>
                  if b = 224 then (160 ≤ c1 && c1 ≤ 191) && isCont c2 && isUTF8 rest2
                  else if (225 ≤ b && b ≤ 236) || b = 238 || b = 239 then
                    isCont c1 && isCont c2 && isUTF8 rest2
                  else if b = 237 then (128 ≤ c1 && c1 ≤ 159) && isCont c2 && isUTF8 rest2
                  else
                    match rest2 with
                    | [] => false
                    | c3 :: rest3 =>
                        if b = 240 then
                          (144 ≤ c1 && c1 ≤ 191) && isCont c2 && isCont c3 && isUTF8 rest3
                        else if 241 ≤ b && b ≤ 243 then
                          isCont c1 && isCont c2 && isCont c3 && isUTF8 rest3
                        else if b = 244 then
                          (128 ≤ c1 && c1 ≤ 143) && isCont c2 && isCont c3 && isUTF8 rest3
                        else false

/-- `pub fn get(&mut self, key)` at byte level, without the identity
convention of `KvStore.get`: additionally `none` models the
`let ksize = vv.len - 16 - vsize` checked `u32` subtraction panicking on
underflow and `take(vsize).read_to_string(&mut s).unwrap()` panicking when
the bytes read back for the value are not valid UTF-8. -/
def KvStore.get_utf8 (s : KvStore) (k : Bytes) : Option (Except KvsError (Option Bytes)) :=
  match lookupIdx s.indexes k with
  | none => some (.error .KeyNotFound)
  | some vv =>
      if vv.n ∈ s.readers then
        let c := (lookupF s.files vv.n).getD []
        if vv.pos + 16 ≤ c.length then
          let vsize := fromLE ((c.drop (vv.pos + 12)).take 4)
          if 16 + vsize ≤ vv.len then
            let ksize := vv.len - 16 - vsize
            let val := (c.drop (vv.pos + 16 + ksize)).take vsize
            if isUTF8 val then some (.ok (some val)) else none
          else none
        else none
      else some (.ok none)

/-- `pub fn remove(&mut self, key)`. `Err(KeyNotFound)` on a miss; otherwise
removes the entry, counts its length as uncompacted and zeroes its record via
`readers.get_mut(&v.n).unwrap()` — `none` models that unwrap panicking. -/
def KvStore.remove (s : KvStore) (k : Bytes) : Option (KvStore × Except KvsError Unit) :=
  match lookupIdx s.indexes k with
  | none => some (s, .error .KeyNotFound)
  | some v =>
      if v.n ∈ s.readers then
        some ({ s with
                indexes := eraseIdx s.indexes k,
                uncompacted := s.uncompacted + v.len,
                files := remove_item s.files v.n v.pos }, .ok ())
      else none

/-- State threaded through the replay loop of `open`. -/
structure ReplaySt where
  files : List (Nat × Bytes)
  readers : List Nat
  idx : List (Bytes × DataIndex)
  unc : Nat
deriving DecidableEq, Repr

/-- The `loop { read_item .. }` body of `open` replaying one segment `gen`
with content snapshot `c`, starting at `pos`.  A failed read breaks the loop
(returning the state built so far); a record with timestamp 0 only counts as
uncompacted; otherwise the entry is inserted and, if it displaces an earlier
entry, that entry's record is zeroed through `readers.get_mut(&v.n).unwrap()`
(`none` when the handle is missing) and its length counted. -/
def replayFuel (gen : Nat) (c : Bytes) : Nat → Nat → ReplaySt → Option ReplaySt
  | 0, _, _ => none
  | fuel + 1, pos, st =>
      match read_item gen c pos with
      | none => some st
      | some ((k, d), pos2) =>
          if d.timestamp = 0 then
            replayFuel gen c fuel pos2 { st with unc := st.unc + d.len }
          else
            match lookupIdx st.idx k with
            | none => replayFuel gen c fuel pos2 { st with idx := insertIdx st.idx k d }
            | some v =>
                if v.n ∈ st.readers then
                  replayFuel gen c fuel pos2
                    { st with
                      files := remove_item st.files v.n v.pos,
                      idx := insertIdx st.idx k d,
                      unc := st.unc + v.len }
                else none

/-- The per-generation loop of `open`: for each parsed generation, open the
file (created empty if absent — and then immediately deleted again as a
zero-length file), delete zero-length files, replay non-empty ones, then
register the reader handle and push the generation.  Returns the final
accumulator together with `vec`. -/
def openLoop : List Nat → List (Nat × Bytes) → List Nat → List (Bytes × DataIndex) →
    Nat → List Nat → Option (List (Nat × Bytes) × List Nat × List (Bytes × DataIndex) × Nat × List Nat)
  | [], fs, rd, idx, unc, vec => some (fs, rd, idx, unc, vec)
  | num :: rest, fs, rd, idx, unc, vec =>
      match lookupF fs num with
      | none => openLoop rest fs rd idx unc vec
      | some c =>
          if c.length = 0 then
            openLoop rest (eraseF fs num) rd idx unc vec
          else
            match replayFuel num c (c.length + 1) 0 ⟨fs, rd, idx, unc⟩ with
            | none => none
            | some st =>
                openLoop rest st.files (readersInsert st.readers num) st.idx st.unc (vec ++ [num])

/-- The tail of `open` after the directory scan: run the loop over the sorted
generation list, then create the new active segment `maxn = vec.max + 1`. -/
def openCore (entries : List Nat) (files0 : List (Nat × Bytes)) : Option KvStore :=
  match openLoop (List.insertionSort (fun a b => a ≤ b) entries) files0 [] [] 0 [] with
  | none => none
  | some (fs, rd, idx, unc, vec) =>
      let maxn := (List.insertionSort (fun a b => a ≤ b) vec).getLastD 0 + 1
      some { nth := maxn,
             readers := readersInsert rd maxn,
             indexes := idx,
             files := createF fs maxn,
             uncompacted := unc }

/-- `KvStore::open` on a directory given directly as a generation-keyed map
of segment-file contents (the filename layer is modelled separately below). -/
def openA (segs : List (Nat × Bytes)) : Option KvStore :=
  openCore (segs.map Prod.fst) segs

/-- A directory entry name as surfaced by `read_dir`: either valid Unicode
(`to_str()` succeeds) or not. -/
inductive FileName where
  | txt (s : String)
  | nonUnicode
deriving DecidableEq

/-- Strip every trailing `".log"` from a reversed character list
(`trim_end_matches(".log")` seen from the right). -/
def stripLogRev : List Char → List Char
  | 'g' :: 'o' :: 'l' :: '.' :: rest => stripLogRev rest
  | l => l

/-- Accumulating decimal parse; fails on any non-digit. -/
def parseDigits : List Char → Nat → Option Nat
  | [], acc => some acc
  | ch :: rest, acc =>
      if ch.isDigit then parseDigits rest (acc * 10 + (ch.toNat - 48)) else none

/-- Rust `str::parse::<u64>()`: optional leading `+`, at least one digit,
all digits, value below `2^64`. -/
def parseU64 : List Char → Option Nat
  | [] => none
  | '+' :: rest =>
      match rest with
      | [] => none
      | _ => (parseDigits rest 0).bind fun v => if v < 2 ^ 64 then some v else none
  | l => (parseDigits l 0).bind fun v => if v < 2 ^ 64 then some v else none

/-- The generation a filename parses to during the open scan:
`name.trim_end_matches(".log").parse::<u64>()`. -/
def parseGen (s : String) : Option Nat :=
  parseU64 (stripLogRev s.data.reverse).reverse

/-- Collect the parsed generations of all directory entries;
`none` when some filename is not valid Unicode (`to_str().unwrap()` panics). -/
def entriesOf : List (FileName × Bytes) → Option (List Nat)
  | [] => some []
  | (.txt s, _) :: rest => (entriesOf rest).map (fun l => (parseGen s).toList ++ l)
  | (.nonUnicode, _) :: _ => none

/-- Canonical decimal digit strings (what `format!("{}", n)` produces):
nonempty, all digits, no leading zero except `"0"` itself. -/
def isCanonNat (l : List Char) : Bool :=
  match l with
  | [] => false
  | ['0'] => true
  | ch :: _ => ch.isDigit && ch ≠ '0' && l.all Char.isDigit

/-- `some n` exactly when the string is the literal name `"{n}.log"` that
`open_file` builds for generation `n`. -/
def exactLog (s : String) : Option Nat :=
  match s.data.reverse with
  | 'g' :: 'o' :: 'l' :: '.' :: restRev =>
      let p := restRev.reverse
      if isCanonNat p then
        (parseDigits p 0).bind fun v => if v < 2 ^ 64 then some v else none
      else none
  | _ => none

/-- The generation-keyed view of a directory: only files literally named
`"{n}.log"` are addressable by `open_file`. -/
def segFilesOf (d : List (FileName × Bytes)) : List (Nat × Bytes) :=
  d.filterMap fun fc =>
    match fc.1 with
    | .txt s => (exactLog s).map fun n => (n, fc.2)
    | .nonUnicode => none

/-- `KvStore::open` including the filename-parsing layer of the directory
scan. -/
def openDir (d : List (FileName × Bytes)) : Option KvStore :=
  match entriesOf d with
  | none => none
  | some es => openCore es (segFilesOf d)

/-- One client operation; `t` is the `unix_time()` observed by a `set`. -/
inductive Op where
  | setOp (k v : Bytes) (t : Nat)
  | removeOp (k : Bytes)
  | getOp (k : Bytes)
deriving DecidableEq, Repr

/-- Run one operation; `none` models a panic. A `remove` returning
`Err(KeyNotFound)` leaves the store unchanged and the sequence continues. -/
def applyOp (s : KvStore) : Op → Option KvStore
  | .setOp k v t => some (s.set k v t)
  | .removeOp k => (s.remove k).map Prod.fst
  | .getOp k => (s.get k).map fun _ => s

/-- Run a sequence of operations. -/
def exec (s : KvStore) : List Op → Option KvStore
  | [] => some s
  | op :: rest => (applyOp s op).bind fun s2 => exec s2 rest

/-- Realizability bounds on one operation: `unix_time()` is a nonzero `u64`
and key/value byte lengths keep the stored `u32` record length exact. -/
def OpOK : Op → Prop
  | .setOp k v t => 0 < t ∧ t < 2 ^ 64 ∧ k.length + v.length + 17 ≤ 2 ^ 32
  | .removeOp _ => True
  | .getOp _ => True

/-- Ghost description of one on-disk record. -/
structure Rec where
  t : Nat
  k : Bytes
  v : Bytes
deriving DecidableEq, Repr

/-- Encoded length of a record. -/
def encLen (r : Rec) : Nat := 16 + r.k.length + r.v.length

/-- The bytes of one ghost record. -/
def Rec.enc (r : Rec) : Bytes := recordBytes r.t r.k r.v

/-- A segment file as the concatenation of its records. -/
def encFile (rs : List Rec) : Bytes := (rs.map Rec.enc).flatten

/-- Bounds making a ghost record's on-disk arithmetic exact. -/
def RecOK (r : Rec) : Prop := r.k.length + r.v.length + 17 ≤ 2 ^ 32 ∧ r.t < 2 ^ 64

/-- Ghost lookup. -/
def lookupG : List (Nat × List Rec) → Nat → Option (List Rec)
  | [], _ => none
  | (g, rs) :: rest, n => if g = n then some rs else lookupG rest n

/-- Ghost insert-or-replace. -/
def updateG : List (Nat × List Rec) → Nat → List Rec → List (Nat × List Rec)
  | [], n, rs => [(n, rs)]
  | (g, rs0) :: rest, n, rs => if g = n then (n, rs) :: rest else (g, rs0) :: updateG rest n rs

/-- Record `i` of a record list (defaulting outside the range). -/
def recAt (rs : List Rec) (i : Nat) : Rec := (rs.drop i).headD ⟨0, [], []⟩

/-- The index entry describing record `i` of segment `gen` with records `rs`. -/
def entryAt (gen : Nat) (rs : List Rec) (i : Nat) : DataIndex :=
  ⟨gen, (encFile (rs.take i)).length, encLen (recAt rs i), (recAt rs i).t⟩

/-- Ghost image of `remove_item`: record `i` with its timestamp zeroed. -/
def zeroRec (r : Rec) : Rec := ⟨0, r.k, r.v⟩

/-- Ghost image of `remove_item` on the file of generation `n`. -/
def zeroG (G : List (Nat × List Rec)) (n i : Nat) : List (Nat × List Rec) :=
  match lookupG G n with
  | some rs => updateG G n (rs.set i (zeroRec (recAt rs i)))
  | none => G

/-- Pure description of what replaying a record list does to the index. -/
def replayPure (gen : Nat) (pos : Nat) (idx : List (Bytes × DataIndex)) :
    List Rec → List (Bytes × DataIndex)
  | [] => idx
  | r :: rest =>
      if r.t = 0 then replayPure gen (pos + encLen r) idx rest
      else replayPure gen (pos + encLen r) (insertIdx idx r.k ⟨gen, pos, encLen r, r.t⟩) rest

/-- Total length of the dead records of a list. -/
def deadLen : List Rec → Nat
  | [] => 0
  | r :: rest => (if r.t = 0 then encLen r else 0) + deadLen rest

/-- The well-formedness invariant tying a store to the ghost description of
its files: contents are record concatenations, handles exist exactly for the
files on disk, and the index holds exactly the live (nonzero-timestamp)
records, each key having the one entry that points at its unique live copy. -/
structure WF (s : KvStore) (G : List (Nat × List Rec)) : Prop where
  wfFiles : List.Forall₂ (fun (fc : Nat × Bytes) (gr : Nat × List Rec) =>
    fc.1 = gr.1 ∧ fc.2 = encFile gr.2) s.files G
  wfNodup : (s.files.map Prod.fst).Nodup
  wfReaders : ∀ g, g ∈ s.readers ↔ g ∈ s.files.map Prod.fst
  wfNth : s.nth ∈ s.files.map Prod.fst
  wfRecOK : ∀ g rs, lookupG G g = some rs → ∀ r ∈ rs, RecOK r
  wfLive : ∀ g rs, lookupG G g = some rs → ∀ i, i < rs.length → (recAt rs i).t ≠ 0 →
    lookupIdx s.indexes ((recAt rs i).k) = some (entryAt g rs i)
  wfEntry : ∀ k e, lookupIdx s.indexes k = some e →
    ∃ rs i, lookupG G e.n = some rs ∧ i < rs.length ∧
      (recAt rs i).k = k ∧ (recAt rs i).t ≠ 0 ∧ e = entryAt e.n rs i
  wfIdxNodup : (s.indexes.map Prod.fst).Nodup

/-- The weak reachability invariant used for the unreachable-branch claim:
every index entry's generation has an open reader handle and its record
header lies inside its file; the active generation has a handle. -/
structure Inv (s : KvStore) : Prop where
  ent : ∀ p ∈ s.indexes, p.2.n ∈ s.readers ∧
    ∃ c, lookupF s.files p.2.n = some c ∧ p.2.pos + 16 ≤ c.length
  nthR : s.nth ∈ s.readers

/-- Pointwise growth of a file table: every file keeps existing and never
shrinks (appends and 8-byte in-place overwrites only). -/
def FilesGrow (fs fs2 : List (Nat × Bytes)) : Prop :=
  ∀ g c, lookupF fs g = some c → ∃ c2, lookupF fs2 g = some c2 ∧ c.length ≤ c2.length

/-- Key-distinctness of the index association list (`BTreeMap` keys are
unique; maintained by every operation). -/
def IdxNodup (idx : List (Bytes × DataIndex)) : Prop :=
  (idx.map Prod.fst).Nodup

/-- The store produced by opening an empty directory. -/
def store0 : KvStore :=
  { nth := 1, readers := [1], indexes := [], files := [(1, [])], uncompacted := 0 }

/-- Ghost state of `store0`. -/
def ghost0 : List (Nat × List Rec) := [(1, [])]

theorem toLE_length (w : Nat) : ∀ n, (toLE w n).length = w := by
  induction w with
  | zero => intro n; rfl
  | succ w ih => intro n; simp [toLE, ih]

theorem fromLE_nil : fromLE [] = 0 := rfl

theorem fromLE_cons (b : Nat) (l : Bytes) : fromLE (b :: l) = b + 256 * fromLE l := rfl

theorem fromLE_toLE (w : Nat) : ∀ n, fromLE (toLE w n) = n % 256 ^ w := by
  induction w with
  | zero => intro n; simp [toLE, fromLE_nil, Nat.mod_one]
  | succ w ih =>
      intro n
      rw [toLE, fromLE_cons, ih, pow_succ, mul_comm (256 ^ w) 256, Nat.mod_mul]

theorem fromLE_toLE_eq {w n : Nat} (h : n < 256 ^ w) : fromLE (toLE w n) = n := by
  rw [fromLE_toLE, Nat.mod_eq_of_lt h]

theorem lookupF_updateF_self (fs : List (Nat × Bytes)) (n : Nat) (c : Bytes) :
    lookupF (updateF fs n c) n = some c := by
  induction fs with
  | nil => simp [updateF, lookupF]
  | cons hd tl ih =>
      obtain ⟨g, c0⟩ := hd
      by_cases hg : g = n
      · simp [updateF, hg, lookupF]
      · simp [updateF, hg, lookupF, ih]

theorem lookupF_updateF_ne (fs : List (Nat × Bytes)) {n m : Nat} (c : Bytes) (h : n ≠ m) :
    lookupF (updateF fs n c) m = lookupF fs m := by
  induction fs with
  | nil => simp [updateF, lookupF, h]
  | cons hd tl ih =>
      obtain ⟨g, c0⟩ := hd
      by_cases hg : g = n
      · subst hg; simp [updateF, lookupF, h, if_neg h]
      · simp [updateF, hg, lookupF, ih]

theorem lookupF_eraseF_ne (fs : List (Nat × Bytes)) {n m : Nat} (h : n ≠ m) :
    lookupF (eraseF fs n) m = lookupF fs m := by
  induction fs with
  | nil => simp [eraseF]
  | cons hd tl ih =>
      obtain ⟨g, c0⟩ := hd
      by_cases hg : g = n
      · subst hg; simp [eraseF, lookupF, if_neg h]
      · simp [eraseF, hg, lookupF, ih]

theorem mem_keys_lookupF {fs : List (Nat × Bytes)} {n : Nat} :
    n ∈ fs.map Prod.fst ↔ (lookupF fs n).isSome := by
  induction fs with
  | nil => simp [lookupF]
  | cons hd tl ih =>
      obtain ⟨g, c⟩ := hd
      by_cases hg : g = n
      · subst hg; simp [lookupF]
      · simp [lookupF, hg, ih, Ne.symm hg]

theorem lookupF_eq_none {fs : List (Nat × Bytes)} {n : Nat}
    (h : n ∉ fs.map Prod.fst) : lookupF fs n = none := by
  cases hl : lookupF fs n with
  | none => rfl
  | some c => exact absurd (mem_keys_lookupF.2 (by simp [hl])) h

theorem lookupF_eraseF_self (fs : List (Nat × Bytes)) (n : Nat)
    (h : (fs.map Prod.fst).Nodup) : lookupF (eraseF fs n) n = none := by
  induction fs with
  | nil => simp [eraseF, lookupF]
  | cons hd tl ih =>
      obtain ⟨g, c0⟩ := hd
      simp only [List.map_cons, List.nodup_cons] at h
      by_cases hg : g = n
      · subst hg
        simp only [eraseF, if_pos rfl]
        exact lookupF_eq_none h.1
      · simp only [eraseF, if_neg hg, lookupF, if_neg hg]
        exact ih h.2

theorem keys_updateF_present (fs : List (Nat × Bytes)) {n : Nat} (c : Bytes)
    (h : (lookupF fs n).isSome) :
    (updateF fs n c).map Prod.fst = fs.map Prod.fst := by
  induction fs with
  | nil => simp [lookupF] at h
  | cons hd tl ih =>
      obtain ⟨g, c0⟩ := hd
      by_cases hg : g = n
      · subst hg; simp [updateF]
      · simp only [lookupF, if_neg hg] at h
        simp [updateF, hg, ih h]

theorem keys_updateF_absent (fs : List (Nat × Bytes)) {n : Nat} (c : Bytes)
    (h : lookupF fs n = none) :
    (updateF fs n c).map Prod.fst = fs.map Prod.fst ++ [n] := by
  induction fs with
  | nil => simp [updateF]
  | cons hd tl ih =>
      obtain ⟨g, c0⟩ := hd
      by_cases hg : g = n
      · subst hg; simp [lookupF] at h
      · simp only [lookupF, if_neg hg] at h
        simp [updateF, hg, ih h]

theorem lookupIdx_insertIdx_self (idx : List (Bytes × DataIndex)) (k : Bytes) (d : DataIndex) :
    lookupIdx (insertIdx idx k d) k = some d := by
  induction idx with
  | nil => simp [insertIdx, lookupIdx]
  | cons hd tl ih =>
      obtain ⟨k0, d0⟩ := hd
      by_cases hk : k0 = k
      · simp [insertIdx, hk, lookupIdx]
      · simp [insertIdx, hk, lookupIdx, ih]

theorem lookupIdx_insertIdx_ne (idx : List (Bytes × DataIndex)) {k k2 : Bytes} (d : DataIndex)
    (h : k ≠ k2) : lookupIdx (insertIdx idx k d) k2 = lookupIdx idx k2 := by
  induction idx with
  | nil => simp [insertIdx, lookupIdx, h]
  | cons hd tl ih =>
      obtain ⟨k0, d0⟩ := hd
      by_cases hk : k0 = k
      · subst hk; simp [insertIdx, lookupIdx, h, if_neg h]
      · simp [insertIdx, hk, lookupIdx, ih]

theorem lookupIdx_eraseIdx_ne (idx : List (Bytes × DataIndex)) {k k2 : Bytes}
    (h : k ≠ k2) : lookupIdx (eraseIdx idx k) k2 = lookupIdx idx k2 := by
  induction idx with
  | nil => simp [eraseIdx]
  | cons hd tl ih =>
      obtain ⟨k0, d0⟩ := hd
      by_cases hk : k0 = k
      · subst hk; simp [eraseIdx, lookupIdx, if_neg h]
      · simp [eraseIdx, hk, lookupIdx, ih]

theorem mem_keys_lookupIdx {idx : List (Bytes × DataIndex)} {k : Bytes} :
    k ∈ idx.map Prod.fst ↔ (lookupIdx idx k).isSome := by
  induction idx with
  | nil => simp [lookupIdx]
  | cons hd tl ih =>
      obtain ⟨k0, d⟩ := hd
      by_cases hk : k0 = k
      · subst hk; simp [lookupIdx]
      · simp [lookupIdx, hk, ih, Ne.symm hk]

theorem lookupIdx_eq_none {idx : List (Bytes × DataIndex)} {k : Bytes}
    (h : k ∉ idx.map Prod.fst) : lookupIdx idx k = none := by
  cases hl : lookupIdx idx k with
  | none => rfl
  | some d => exact absurd (mem_keys_lookupIdx.2 (by simp [hl])) h

theorem lookupIdx_eraseIdx_self (idx : List (Bytes × DataIndex)) (k : Bytes)
    (h : IdxNodup idx) : lookupIdx (eraseIdx idx k) k = none := by
  induction idx with
  | nil => simp [eraseIdx, lookupIdx]
  | cons hd tl ih =>
      obtain ⟨k0, d0⟩ := hd
      simp only [IdxNodup, List.map_cons, List.nodup_cons] at h
      by_cases hk : k0 = k
      · subst hk
        simp only [eraseIdx, if_pos rfl]
        exact lookupIdx_eq_none h.1
      · simp only [eraseIdx, if_neg hk, lookupIdx, if_neg hk]
        exact ih h.2

theorem keys_insertIdx_present (idx : List (Bytes × DataIndex)) {k : Bytes} (d : DataIndex)
    (h : (lookupIdx idx k).isSome) :
    (insertIdx idx k d).map Prod.fst = idx.map Prod.fst := by
  induction idx with
  | nil => simp [lookupIdx] at h
  | cons hd tl ih =>
      obtain ⟨k0, d0⟩ := hd
      by_cases hk : k0 = k
      · subst hk; simp [insertIdx]
      · simp only [lookupIdx, if_neg hk] at h
        simp [insertIdx, hk, ih h]

theorem keys_insertIdx_absent (idx : List (Bytes × DataIndex)) {k : Bytes} (d : DataIndex)
    (h : lookupIdx idx k = none) :
    (insertIdx idx k d).map Prod.fst = idx.map Prod.fst ++ [k] := by
  induction idx with
  | nil => simp [insertIdx]
  | cons hd tl ih =>
      obtain ⟨k0, d0⟩ := hd
      by_cases hk : k0 = k
      · subst hk; simp [lookupIdx] at h
      · simp only [lookupIdx, if_neg hk] at h
        simp [insertIdx, hk, ih h]

theorem idxNodup_insertIdx (idx : List (Bytes × DataIndex)) (k : Bytes) (d : DataIndex)
    (h : IdxNodup idx) : IdxNodup (insertIdx idx k d) := by
  cases hl : lookupIdx idx k with
  | none =>
      have hmem : k ∉ idx.map Prod.fst := by
        intro hm
        rw [mem_keys_lookupIdx, hl] at hm
        simp at hm
      have hkeys := keys_insertIdx_absent idx d hl
      simp only [IdxNodup, hkeys]
      exact List.Nodup.append h (List.nodup_singleton k) (by
        intro a ha hb
        simp only [List.mem_singleton] at hb
        exact hmem (hb ▸ ha))
  | some d0 =>
      have hkeys := keys_insertIdx_present idx d (by rw [hl]; rfl)
      simpa [IdxNodup, hkeys] using h

theorem keys_eraseIdx_subset (idx : List (Bytes × DataIndex)) (k : Bytes) :
    (eraseIdx idx k).map Prod.fst ⊆ idx.map Prod.fst := by
  induction idx with
  | nil => simp [eraseIdx]
  | cons hd tl ih =>
      obtain ⟨k0, d0⟩ := hd
      by_cases hk : k0 = k
      · have he : eraseIdx ((k0, d0) :: tl) k = tl := by simp [eraseIdx, hk]
        rw [he, List.map_cons]
        exact List.subset_cons_self _ _
      · have he : eraseIdx ((k0, d0) :: tl) k = (k0, d0) :: eraseIdx tl k := by
          simp [eraseIdx, hk]
        rw [he, List.map_cons, List.map_cons]
        exact List.cons_subset_cons _ ih

theorem idxNodup_eraseIdx (idx : List (Bytes × DataIndex)) (k : Bytes)
    (h : IdxNodup idx) : IdxNodup (eraseIdx idx k) := by
  induction idx with
  | nil => simpa [eraseIdx] using h
  | cons hd tl ih =>
      obtain ⟨k0, d0⟩ := hd
      simp only [IdxNodup, List.map_cons, List.nodup_cons] at h
      by_cases hk : k0 = k
      · subst hk; simpa [eraseIdx, IdxNodup] using h.2
      · simp only [eraseIdx, if_neg hk, IdxNodup, List.map_cons, List.nodup_cons]
        exact ⟨fun hm => h.1 (keys_eraseIdx_subset tl k hm), ih h.2⟩

theorem enc_length (r : Rec) : r.enc.length = encLen r := by
  simp [Rec.enc, recordBytes, encLen, toLE_length]
  omega

theorem encLen_ge (r : Rec) : 16 ≤ encLen r := by
  simp only [encLen]
  omega

theorem encFile_nil : encFile [] = [] := rfl

theorem encFile_cons (r : Rec) (rs : List Rec) :
    encFile (r :: rs) = r.enc ++ encFile rs := by
  simp [encFile]

theorem encFile_append (rs1 rs2 : List Rec) :
    encFile (rs1 ++ rs2) = encFile rs1 ++ encFile rs2 := by
  simp [encFile]

theorem length_le_length_encFile (rs : List Rec) : rs.length ≤ (encFile rs).length := by
  induction rs with
  | nil => simp [encFile_nil]
  | cons r rest ih =>
      rw [encFile_cons]
      simp only [List.length_append, List.length_cons, enc_length]
      have := encLen_ge r
      omega

theorem recAt_eq {rs : List Rec} {i : Nat} (h : i < rs.length) :
    recAt rs i = rs.get ⟨i, h⟩ := by
  unfold recAt
  rw [List.drop_eq_getElem_cons h]
  rfl

theorem encFile_decomp {rs : List Rec} {i : Nat} (h : i < rs.length) :
    encFile rs = encFile (rs.take i) ++ (recAt rs i).enc ++ encFile (rs.drop (i + 1)) := by
  conv_lhs => rw [← List.take_append_drop i rs]
  rw [encFile_append, List.drop_eq_getElem_cons h, encFile_cons, recAt_eq h]
  simp [List.append_assoc]

theorem length_overwriteAt (c : Bytes) (pos : Nat) (b : Bytes) :
    (overwriteAt c pos b).length = min pos c.length + b.length + (c.length - (pos + b.length)) := by
  simp [overwriteAt]
  omega

theorem length_overwriteAt_of_le {c : Bytes} {pos : Nat} {b : Bytes}
    (h : pos + b.length ≤ c.length) : (overwriteAt c pos b).length = c.length := by
  rw [length_overwriteAt]
  omega

theorem length_le_length_overwriteAt (c : Bytes) (pos : Nat) (b : Bytes) :
    c.length ≤ (overwriteAt c pos b).length := by
  rw [length_overwriteAt]
  omega

theorem overwriteAt_append_left {c : Bytes} {pos : Nat} {b : Bytes} (d : Bytes)
    (h : pos + b.length ≤ c.length) :
    overwriteAt (c ++ d) pos b = overwriteAt c pos b ++ d := by
  unfold overwriteAt
  rw [List.take_append_of_le_length (by omega), List.drop_append_of_le_length h]
  simp [List.append_assoc]

theorem enc_zero (r : Rec) :
    (Rec.mk 0 r.k r.v).enc = toLE 8 0 ++ (r.enc.drop 8) := by
  simp [Rec.enc, recordBytes]
  rw [List.drop_left' (toLE_length 8 r.t)]

theorem overwriteAt_boundary (A B b : Bytes) :
    overwriteAt (A ++ B) A.length b = A ++ (b ++ B.drop b.length) := by
  unfold overwriteAt
  rw [List.take_left, List.drop_append, List.append_assoc]

theorem overwriteAt_encFile {rs : List Rec} {i : Nat} (hi : i < rs.length) :
    overwriteAt (encFile rs) (encFile (rs.take i)).length (toLE 8 0) =
      encFile (rs.set i ⟨0, (recAt rs i).k, (recAt rs i).v⟩) := by
  have hset : rs.set i ⟨0, (recAt rs i).k, (recAt rs i).v⟩ =
      rs.take i ++ (⟨0, (recAt rs i).k, (recAt rs i).v⟩ : Rec) :: rs.drop (i + 1) := by
    rw [List.set_eq_take_append_cons_drop]
    simp [hi]
  have hdec : encFile rs =
      encFile (rs.take i) ++ ((recAt rs i).enc ++ encFile (rs.drop (i + 1))) := by
    rw [encFile_decomp hi, List.append_assoc]
  rw [hdec, overwriteAt_boundary]
  rw [hset, encFile_append, encFile_cons]
  have hz : (⟨0, (recAt rs i).k, (recAt rs i).v⟩ : Rec).enc =
      toLE 8 0 ++ ((recAt rs i).enc.drop 8) := enc_zero (recAt rs i)
  rw [hz]
  have hdrop : ((recAt rs i).enc ++ encFile (rs.drop (i + 1))).drop (toLE 8 0).length =
      (recAt rs i).enc.drop 8 ++ encFile (rs.drop (i + 1)) := by
    rw [toLE_length]
    apply List.drop_append_of_le_length
    rw [enc_length]
    have := encLen_ge (recAt rs i)
    omega
  rw [hdrop]
  simp [List.append_assoc]

theorem read_item_short {n : Nat} {c : Bytes} {pos : Nat} (h : c.length < pos + 16) :
    read_item n c pos = none := by
  rw [read_item, if_neg (by omega)]

theorem read_item_keyPastEof {n : Nat} {c : Bytes} {pos : Nat}
    (h1 : pos + 16 ≤ c.length)
    (h2 : c.length < pos + 16 + fromLE ((c.drop (pos + 8)).take 4)) :
    read_item n c pos = none := by
  rw [read_item, if_pos h1]
  simp only []
  rw [if_neg (by omega)]

theorem read_item_ok {n : Nat} {c : Bytes} {pos : Nat}
    (h1 : pos + 16 ≤ c.length)
    (h2 : pos + 16 + fromLE ((c.drop (pos + 8)).take 4) ≤ c.length) :
    read_item n c pos =
      some (((c.drop (pos + 16)).take (fromLE ((c.drop (pos + 8)).take 4)),
             ⟨n, pos,
              (16 + fromLE ((c.drop (pos + 8)).take 4) + fromLE ((c.drop (pos + 12)).take 4)) % 2 ^ 32,
              fromLE ((c.drop pos).take 8)⟩),
            pos + 16 + fromLE ((c.drop (pos + 8)).take 4) + fromLE ((c.drop (pos + 12)).take 4)) := by
  rw [read_item, if_pos h1]
  simp only []
  rw [if_pos h2]

theorem read_item_rec (n : Nat) (pre suf : Bytes) (r : Rec) (h : RecOK r) :
    read_item n (pre ++ r.enc ++ suf) pre.length =
      some ((r.k, ⟨n, pre.length, encLen r, r.t⟩), pre.length + encLen r) := by
  obtain ⟨hb, ht⟩ := h
  have hclen : (pre ++ r.enc ++ suf).length =
      pre.length + encLen r + suf.length := by
    simp [enc_length]
    omega
  have d0 : (pre ++ r.enc ++ suf).drop pre.length = r.enc ++ suf := by
    rw [List.append_assoc]
    exact List.drop_left pre _
  have d8 : (pre ++ r.enc ++ suf).drop (pre.length + 8) =
      toLE 4 r.k.length ++ (toLE 4 r.v.length ++ (r.k ++ (r.v ++ suf))) := by
    have hsplit : pre ++ r.enc ++ suf =
        (pre ++ toLE 8 r.t) ++ (toLE 4 r.k.length ++ (toLE 4 r.v.length ++ (r.k ++ (r.v ++ suf)))) := by
      simp [Rec.enc, recordBytes, List.append_assoc]
    rw [hsplit, List.drop_left']
    simp [toLE_length]
  have d12 : (pre ++ r.enc ++ suf).drop (pre.length + 12) =
      toLE 4 r.v.length ++ (r.k ++ (r.v ++ suf)) := by
    have hsplit : pre ++ r.enc ++ suf =
        (pre ++ toLE 8 r.t ++ toLE 4 r.k.length) ++ (toLE 4 r.v.length ++ (r.k ++ (r.v ++ suf))) := by
      simp [Rec.enc, recordBytes, List.append_assoc]
    rw [hsplit, List.drop_left']
    simp [toLE_length]
  have d16 : (pre ++ r.enc ++ suf).drop (pre.length + 16) = r.k ++ (r.v ++ suf) := by
    have hsplit : pre ++ r.enc ++ suf =
        (pre ++ toLE 8 r.t ++ toLE 4 r.k.length ++ toLE 4 r.v.length) ++ (r.k ++ (r.v ++ suf)) := by
      simp [Rec.enc, recordBytes, List.append_assoc]
    rw [hsplit, List.drop_left']
    simp [toLE_length]
  have rks : fromLE (((pre ++ r.enc ++ suf).drop (pre.length + 8)).take 4) = r.k.length := by
    rw [d8, List.take_left' (toLE_length 4 r.k.length), fromLE_toLE, Nat.mod_eq_of_lt]
    have : (256 : Nat) ^ 4 = 2 ^ 32 := by norm_num
    omega
  have rvs : fromLE (((pre ++ r.enc ++ suf).drop (pre.length + 12)).take 4) = r.v.length := by
    rw [d12, List.take_left' (toLE_length 4 r.v.length), fromLE_toLE, Nat.mod_eq_of_lt]
    have : (256 : Nat) ^ 4 = 2 ^ 32 := by norm_num
    omega
  have rts : fromLE (((pre ++ r.enc ++ suf).drop pre.length).take 8) = r.t := by
    rw [d0]
    have hsplit : r.enc ++ suf = toLE 8 r.t ++ (toLE 4 r.k.length ++ (toLE 4 r.v.length ++ (r.k ++ (r.v ++ suf)))) := by
      simp [Rec.enc, recordBytes, List.append_assoc]
    rw [hsplit, List.take_left' (toLE_length 8 r.t), fromLE_toLE, Nat.mod_eq_of_lt]
    have : (256 : Nat) ^ 8 = 2 ^ 64 := by norm_num
    omega
  have rkey : ((pre ++ r.enc ++ suf).drop (pre.length + 16)).take r.k.length = r.k := by
    rw [d16, List.take_left' rfl]
  have hg1 : pre.length + 16 ≤ (pre ++ r.enc ++ suf).length := by
    rw [hclen]
    have := encLen_ge r
    omega
  have hg2 : pre.length + 16 + fromLE (((pre ++ r.enc ++ suf).drop (pre.length + 8)).take 4) ≤
      (pre ++ r.enc ++ suf).length := by
    rw [rks, hclen]
    simp only [encLen]
    omega
  rw [read_item_ok hg1 hg2, rks, rvs, rts, rkey]
  have hmod : (16 + r.k.length + r.v.length) % 2 ^ 32 = encLen r := by
    rw [Nat.mod_eq_of_lt (by simp [encLen] at hb ⊢; omega)]
    simp [encLen]
  rw [hmod]
  have hpos : pre.length + 16 + r.k.length + r.v.length = pre.length + encLen r := by
    simp [encLen]
    omega
  rw [hpos]

theorem recAt_zero (r : Rec) (rs : List Rec) : recAt (r :: rs) 0 = r := rfl

theorem recAt_succ (r : Rec) (rs : List Rec) (i : Nat) : recAt (r :: rs) (i + 1) = recAt rs i := rfl

theorem exists_recAt {rs : List Rec} {r : Rec} (h : r ∈ rs) :
    ∃ i, i < rs.length ∧ recAt rs i = r := by
  obtain ⟨i, hi, hget⟩ := List.mem_iff_getElem.1 h
  exact ⟨i, hi, by rw [recAt_eq hi]; simpa using hget⟩

theorem recAt_mem {rs : List Rec} {i : Nat} (h : i < rs.length) : recAt rs i ∈ rs := by
  rw [recAt_eq h]
  exact List.get_mem rs i h

theorem replayFuel_stop {gen : Nat} {c : Bytes} {pos : Nat} {st : ReplaySt} (fuel : Nat)
    (h : read_item gen c pos = none) :
    replayFuel gen c (fuel + 1) pos st = some st := by
  simp [replayFuel, h]

theorem replayPure_nil (gen pos : Nat) (idx : List (Bytes × DataIndex)) :
    replayPure gen pos idx [] = idx := rfl

theorem replayPure_cons_dead (gen pos : Nat) (idx : List (Bytes × DataIndex))
    {r : Rec} (rs : List Rec) (h : r.t = 0) :
    replayPure gen pos idx (r :: rs) = replayPure gen (pos + encLen r) idx rs := by
  simp [replayPure, h]

theorem replayPure_cons_live (gen pos : Nat) (idx : List (Bytes × DataIndex))
    {r : Rec} (rs : List Rec) (h : r.t ≠ 0) :
    replayPure gen pos idx (r :: rs) =
      replayPure gen (pos + encLen r) (insertIdx idx r.k ⟨gen, pos, encLen r, r.t⟩) rs := by
  simp [replayPure, h]

theorem replayPure_lookup_absent (gen : Nat) :
    ∀ (rs : List Rec) (pos : Nat) (idx : List (Bytes × DataIndex)) (k : Bytes),
    (∀ r ∈ rs, r.t ≠ 0 → r.k ≠ k) →
    lookupIdx (replayPure gen pos idx rs) k = lookupIdx idx k := by
  intro rs
  induction rs with
  | nil => intro pos idx k _; rfl
  | cons r rest ih =>
      intro pos idx k habs
      by_cases ht : r.t = 0
      · rw [replayPure_cons_dead _ _ _ _ ht]
        exact ih _ _ _ (fun r2 h2 => habs r2 (List.mem_cons_of_mem _ h2))
      · rw [replayPure_cons_live _ _ _ _ ht]
        rw [ih _ _ _ (fun r2 h2 => habs r2 (List.mem_cons_of_mem _ h2))]
        exact lookupIdx_insertIdx_ne _ _ (habs r (List.mem_cons_self _ _) ht)

theorem replayPure_lookup_live (gen : Nat) :
    ∀ (rs : List Rec) (pos : Nat) (idx : List (Bytes × DataIndex)) (i : Nat),
    i < rs.length →
    (recAt rs i).t ≠ 0 →
    (∀ a b, a < b → b < rs.length → (recAt rs a).t ≠ 0 → (recAt rs b).t ≠ 0 →
      (recAt rs a).k ≠ (recAt rs b).k) →
    lookupIdx (replayPure gen pos idx rs) ((recAt rs i).k) =
      some ⟨gen, pos + (encFile (rs.take i)).length, encLen (recAt rs i), (recAt rs i).t⟩ := by
  intro rs
  induction rs with
  | nil => intro pos idx i hi; exact absurd hi (by simp)
  | cons r rest ih =>
      intro pos idx i hi hlive hnd
      cases i with
      | zero =>
          rw [recAt_zero] at hlive ⊢
          rw [replayPure_cons_live _ _ _ _ hlive]
          rw [replayPure_lookup_absent gen rest _ _ _ (fun r2 h2 ht2 => by
            obtain ⟨j, hj, hrj⟩ := exists_recAt h2
            have := hnd 0 (j + 1) (by omega) (by simpa using hj)
            rw [recAt_zero, recAt_succ, hrj] at this
            exact Ne.symm (this hlive ht2))]
          rw [lookupIdx_insertIdx_self]
          simp [encFile_nil]
      | succ j =>
          have hj : j < rest.length := by simpa using hi
          rw [recAt_succ] at hlive ⊢
          have hnd2 : ∀ a b, a < b → b < rest.length → (recAt rest a).t ≠ 0 →
              (recAt rest b).t ≠ 0 → (recAt rest a).k ≠ (recAt rest b).k := by
            intro a b hab hb
            have := hnd (a + 1) (b + 1) (by omega) (by simpa using hb)
            rw [recAt_succ, recAt_succ] at this
            exact this
          have htake : encFile ((r :: rest).take (j + 1)) = r.enc ++ encFile (rest.take j) := by
            rw [List.take_succ_cons, encFile_cons]
          by_cases ht : r.t = 0
          · rw [replayPure_cons_dead _ _ _ _ ht]
            rw [ih (pos + encLen r) idx j hj hlive hnd2]
            rw [htake]
            simp [enc_length]
            omega
          · rw [replayPure_cons_live _ _ _ _ ht]
            rw [ih (pos + encLen r) _ j hj hlive hnd2]
            rw [htake]
            simp [enc_length]
            omega

theorem replayFuel_clean (gen : Nat) (c suf : Bytes) :
    ∀ (rs : List Rec) (pre : Bytes) (fuel : Nat) (st : ReplaySt),
    c = pre ++ encFile rs ++ suf →
    rs.length < fuel →
    (∀ r ∈ rs, RecOK r) →
    (∀ r ∈ rs, r.t ≠ 0 → lookupIdx st.idx r.k = none) →
    (∀ a b, a < b → b < rs.length → (recAt rs a).t ≠ 0 → (recAt rs b).t ≠ 0 →
      (recAt rs a).k ≠ (recAt rs b).k) →
    read_item gen c (pre.length + (encFile rs).length) = none →
    replayFuel gen c fuel pre.length st =
      some ⟨st.files, st.readers, replayPure gen pre.length st.idx rs, st.unc + deadLen rs⟩ := by
  intro rs
  induction rs with
  | nil =>
      intro pre fuel st hc hfuel _ _ _ hstop
      obtain ⟨f, rfl⟩ : ∃ f, fuel = f + 1 := ⟨fuel - 1, by omega⟩
      rw [encFile_nil] at hstop
      simp only [List.length_nil, Nat.add_zero] at hstop
      rw [replayFuel_stop f hstop]
      simp [replayPure_nil, deadLen]
  | cons r rest ih =>
      intro pre fuel st hc hfuel hbound habs hnd hstop
      obtain ⟨f, rfl⟩ : ∃ f, fuel = f + 1 := ⟨fuel - 1, by omega⟩
      have hc2 : c = pre ++ r.enc ++ (encFile rest ++ suf) := by
        rw [hc, encFile_cons]
        simp [List.append_assoc]
      have hread : read_item gen c pre.length =
          some ((r.k, ⟨gen, pre.length, encLen r, r.t⟩), pre.length + encLen r) := by
        rw [hc2]
        exact read_item_rec gen pre (encFile rest ++ suf) r (hbound r (List.mem_cons_self _ _))
      have hplen : (pre ++ r.enc).length = pre.length + encLen r := by
        simp [enc_length]
      have hc3 : c = (pre ++ r.enc) ++ encFile rest ++ suf := by
        rw [hc2]
        simp [List.append_assoc]
      have hstop2 : read_item gen c ((pre ++ r.enc).length + (encFile rest).length) = none := by
        rw [hplen]
        have : pre.length + encLen r + (encFile rest).length =
            pre.length + (encFile (r :: rest)).length := by
          rw [encFile_cons]
          simp [enc_length]
          omega
        rw [this]
        exact hstop
      have hnd2 : ∀ a b, a < b → b < rest.length → (recAt rest a).t ≠ 0 →
          (recAt rest b).t ≠ 0 → (recAt rest a).k ≠ (recAt rest b).k := by
        intro a b hab hb
        have := hnd (a + 1) (b + 1) (by omega) (by simpa using hb)
        rw [recAt_succ, recAt_succ] at this
        exact this
      by_cases ht : r.t = 0
      · have hrun := ih (pre ++ r.enc) f { st with unc := st.unc + encLen r } hc3
          (by simpa using hfuel)
          (fun r2 h2 => hbound r2 (List.mem_cons_of_mem _ h2))
          (fun r2 h2 ht2 => habs r2 (List.mem_cons_of_mem _ h2) ht2)
          hnd2 hstop2
        rw [hplen] at hrun
        simp only [replayFuel, hread, ht, if_pos rfl]
        rw [hrun]
        rw [replayPure_cons_dead _ _ _ _ ht]
        simp [deadLen, ht]
        omega
      · have hlook : lookupIdx st.idx r.k = none := habs r (List.mem_cons_self _ _) ht
        have habs2 : ∀ r2 ∈ rest, r2.t ≠ 0 →
            lookupIdx (insertIdx st.idx r.k ⟨gen, pre.length, encLen r, r.t⟩) r2.k = none := by
          intro r2 h2 ht2
          obtain ⟨j, hj, hrj⟩ := exists_recAt h2
          have hne := hnd 0 (j + 1) (by omega) (by simpa using hj)
          rw [recAt_zero, recAt_succ, hrj] at hne
          rw [lookupIdx_insertIdx_ne _ _ (hne ht ht2)]
          exact habs r2 (List.mem_cons_of_mem _ h2) ht2
        have hrun := ih (pre ++ r.enc) f
          { st with idx := insertIdx st.idx r.k ⟨gen, pre.length, encLen r, r.t⟩ } hc3
          (by simpa using hfuel)
          (fun r2 h2 => hbound r2 (List.mem_cons_of_mem _ h2))
          habs2 hnd2 hstop2
        rw [hplen] at hrun
        simp only [replayFuel, hread, ht, if_neg ht, hlook]
        rw [hrun]
        rw [replayPure_cons_live _ _ _ _ ht]
        simp [deadLen, ht]

theorem sorted_le_getLastD :
    ∀ (l : List Nat), List.Sorted (fun a b => a ≤ b) l → ∀ x ∈ l, x ≤ l.getLastD 0 := by
  intro l
  induction l with
  | nil => intro _ x hx; simp at hx
  | cons a tl ih =>
      intro hs x hx
      rw [List.sorted_cons] at hs
      cases tl with
      | nil =>
          simp only [List.mem_singleton] at hx
          subst hx
          simp [List.getLastD]
      | cons b tl2 =>
          have hgl : (a :: b :: tl2).getLastD 0 = (b :: tl2).getLastD 0 := rfl
          rcases List.mem_cons.1 hx with rfl | hx2
          · have hb : x ≤ b := hs.1 b (List.mem_cons_self _ _)
            have hbl : b ≤ (b :: tl2).getLastD 0 :=
              ih hs.2 b (List.mem_cons_self _ _)
            rw [hgl]
            omega
          · rw [hgl]
            exact ih hs.2 x hx2

theorem mem_le_sort_getLastD {l : List Nat} {x : Nat} (h : x ∈ l) :
    x ≤ (List.insertionSort (fun a b => a ≤ b) l).getLastD 0 := by
  apply sorted_le_getLastD
  · exact List.sorted_insertionSort _ l
  · exact ((List.perm_insertionSort _ l).mem_iff).2 h

theorem mem_readersInsert {r : List Nat} {g n : Nat} :
    g ∈ readersInsert r n ↔ g ∈ r ∨ g = n := by
  unfold readersInsert
  by_cases hn : n ∈ r
  · simp only [if_pos hn]
    constructor
    · exact Or.inl
    · rintro (h | rfl)
      · exact h
      · exact hn
  · simp [if_neg hn]

theorem lookupF_createF_ne {fs : List (Nat × Bytes)} {n m : Nat} (h : m ≠ n) :
    lookupF (createF fs n) m = lookupF fs m := by
  unfold createF
  cases lookupF fs n with
  | some c => rfl
  | none =>
      simp only []
      induction fs with
      | nil => simp [lookupF, Ne.symm h]
      | cons hd tl ih =>
          obtain ⟨g, c0⟩ := hd
          by_cases hg : g = m
          · simp [lookupF, hg]
          · simp only [List.cons_append, lookupF, if_neg hg]
            exact ih

theorem lookupF_ghost {fs : List (Nat × Bytes)} {G : List (Nat × List Rec)}
    (h : List.Forall₂ (fun (fc : Nat × Bytes) (gr : Nat × List Rec) =>
      fc.1 = gr.1 ∧ fc.2 = encFile gr.2) fs G) (n : Nat) :
    lookupF fs n = (lookupG G n).map encFile := by
  induction h with
  | nil => rfl
  | cons hr hrest ih =>
      rename_i a b fs2 G2
      obtain ⟨hfst, hsnd⟩ := hr
      obtain ⟨ga, ca⟩ := a
      obtain ⟨gb, rb⟩ := b
      simp only [] at hfst hsnd
      subst hfst
      by_cases hg : ga = n
      · simp [lookupF, lookupG, hg, hsnd]
      · simp [lookupF, lookupG, hg, ih]

theorem keys_ghost {fs : List (Nat × Bytes)} {G : List (Nat × List Rec)}
    (h : List.Forall₂ (fun (fc : Nat × Bytes) (gr : Nat × List Rec) =>
      fc.1 = gr.1 ∧ fc.2 = encFile gr.2) fs G) :
    fs.map Prod.fst = G.map Prod.fst := by
  induction h with
  | nil => rfl
  | cons hr hrest ih =>
      rename_i a b fs2 G2
      simp [hr.1, ih]

theorem lookupG_mem {G : List (Nat × List Rec)} {g : Nat} {rs : List Rec}
    (h : lookupG G g = some rs) : (g, rs) ∈ G := by
  induction G with
  | nil => simp [lookupG] at h
  | cons hd tl ih =>
      obtain ⟨g0, rs0⟩ := hd
      by_cases hg : g0 = g
      · subst hg
        simp only [lookupG, eq_self_iff_true, if_true, Option.some_inj] at h
        subst h
        exact List.mem_cons_self _ _
      · simp only [lookupG, if_neg hg] at h
        exact List.mem_cons_of_mem _ (ih h)

theorem mem_keys_lookupG {G : List (Nat × List Rec)} {n : Nat} :
    n ∈ G.map Prod.fst ↔ (lookupG G n).isSome := by
  induction G with
  | nil => simp [lookupG]
  | cons hd tl ih =>
      obtain ⟨g, rs⟩ := hd
      by_cases hg : g = n
      · subst hg; simp [lookupG]
      · simp [lookupG, hg, ih, Ne.symm hg]

theorem encFile_take_length_lt {rs : List Rec} {a b : Nat} (hab : a < b) (hb : b ≤ rs.length) :
    (encFile (rs.take a)).length < (encFile (rs.take b)).length := by
  have hsplit : rs.take b = rs.take a ++ (rs.drop a).take (b - a) := by
    have hb2 : b = a + (b - a) := by omega
    conv_lhs => rw [hb2, List.take_add]
  rw [hsplit, encFile_append, List.length_append]
  have hne : (rs.drop a).take (b - a) ≠ [] := by
    have h1 : (rs.drop a).length = rs.length - a := by simp
    intro hnil
    have := congrArg List.length hnil
    simp only [List.length_take, h1, List.length_nil] at this
    omega
  have : 1 ≤ ((rs.drop a).take (b - a)).length := by
    cases hcc : (rs.drop a).take (b - a) with
    | nil => exact absurd hcc hne
    | cons x xs => simp
  have := length_le_length_encFile ((rs.drop a).take (b - a))
  omega

theorem encFile_eq_nil {rs : List Rec} (h : encFile rs = []) : rs = [] := by
  cases rs with
  | nil => rfl
  | cons r rest =>
      rw [encFile_cons] at h
      have := congrArg List.length h
      simp only [List.length_append, enc_length, List.length_nil] at this
      have := encLen_ge r
      omega

theorem wf_no_gen_entry {S : KvStore} {G : List (Nat × List Rec)} (hwf : WF S G)
    {g : Nat} (hg : ∀ rs, lookupG G g = some rs → rs = []) :
    ∀ k e, lookupIdx S.indexes k = some e → e.n ≠ g := by
  intro k e he hne
  subst hne
  obtain ⟨rs, i, hrs, hi, _, _, _⟩ := hwf.wfEntry k e he
  rw [hg rs hrs] at hi
  simp at hi

theorem wf_live_unique {S : KvStore} {G : List (Nat × List Rec)} (hwf : WF S G)
    {g : Nat} {rs : List Rec} (hrs : lookupG G g = some rs) :
    ∀ a b, a < b → b < rs.length → (recAt rs a).t ≠ 0 → (recAt rs b).t ≠ 0 →
      (recAt rs a).k ≠ (recAt rs b).k := by
  intro a b hab hb hta htb hk
  have hmem := lookupG_mem hrs
  have h1 := hwf.wfLive g rs hrs a (by omega) hta
  have h2 := hwf.wfLive g rs hrs b hb htb
  rw [hk] at h1
  rw [h1] at h2
  have h3 := Option.some_inj.1 h2
  simp only [entryAt, DataIndex.mk.injEq] at h3
  obtain ⟨_, hpos, _, _⟩ := h3
  have hlt : (encFile (rs.take a)).length < (encFile (rs.take b)).length :=
    encFile_take_length_lt hab (le_of_lt hb)
  omega

theorem openLoop_clean (S : KvStore) (G : List (Nat × List Rec)) (hwf : WF S G) :
    ∀ (gens done : List Nat) (fs : List (Nat × Bytes)) (rd : List Nat)
      (idx : List (Bytes × DataIndex)) (unc : Nat) (vec : List Nat),
    gens.Nodup →
    (∀ g ∈ gens, g ∉ done) →
    (∀ g ∈ gens, lookupF fs g = lookupF S.files g) →
    (∀ k e, lookupIdx idx k = some e ↔ (lookupIdx S.indexes k = some e ∧ e.n ∈ done)) →
    ∃ fs2 rd2 idx2 unc2 vec2,
      openLoop gens fs rd idx unc vec = some (fs2, rd2, idx2, unc2, vec2) ∧
      (∀ k e, lookupIdx idx2 k = some e ↔
        (lookupIdx S.indexes k = some e ∧ (e.n ∈ done ∨ e.n ∈ gens))) ∧
      (∀ g ∈ gens, ((lookupF S.files g).getD []).length ≠ 0 →
        lookupF fs2 g = lookupF S.files g ∧ g ∈ rd2 ∧ g ∈ vec2) ∧
      (∀ g, g ∉ gens → lookupF fs2 g = lookupF fs g) ∧
      (∀ x ∈ rd, x ∈ rd2) ∧ (∀ x ∈ vec, x ∈ vec2) ∧
      (∀ x ∈ vec2, x ∈ vec ∨ x ∈ gens) := by
  intro gens
  induction gens with
  | nil =>
      intro done fs rd idx unc vec _ _ _ hinv
      refine ⟨fs, rd, idx, unc, vec, rfl, ?_, by simp, fun g _ => rfl,
        fun x hx => hx, fun x hx => hx, fun x hx => Or.inl hx⟩
      intro k e
      rw [hinv k e]
      simp
  | cons g rest ih =>
      intro done fs rd idx unc vec hnd hdisj hfs hinv
      have hgrest : g ∉ rest := (List.nodup_cons.1 hnd).1
      have hndr : rest.Nodup := (List.nodup_cons.1 hnd).2
      have hfsg : lookupF fs g = lookupF S.files g := hfs g (List.mem_cons_self _ _)
      have hmaskstep : ∀ (P : Prop), (P ∨ (g ∈ done ++ [g] → False)) → True := fun _ _ => trivial
      cases hSg : lookupF S.files g with
      | none =>
          have hnogen : ∀ k e, lookupIdx S.indexes k = some e → e.n ≠ g := by
            apply wf_no_gen_entry hwf
            intro rs hrs
            have := lookupF_ghost hwf.wfFiles g
            rw [hSg, hrs] at this
            simp at this
          have hinv2 : ∀ k e, lookupIdx idx k = some e ↔
              (lookupIdx S.indexes k = some e ∧ e.n ∈ done ++ [g]) := by
            intro k e
            rw [hinv k e]
            constructor
            · rintro ⟨h1, h2⟩; exact ⟨h1, by simp [h2]⟩
            · rintro ⟨h1, h2⟩
              refine ⟨h1, ?_⟩
              rcases List.mem_append.1 h2 with h2 | h2
              · exact h2
              · simp only [List.mem_singleton] at h2
                exact absurd h2 (hnogen k e h1)
          obtain ⟨fs2, rd2, idx2, unc2, vec2, hrun, hmask, hne, hunch, hrd, hvec, hvecb⟩ :=
            ih (done ++ [g]) fs rd idx unc vec hndr
              (fun g2 h2 => by
                intro hmem
                rcases List.mem_append.1 hmem with hmem | hmem
                · exact hdisj g2 (List.mem_cons_of_mem _ h2) hmem
                · simp only [List.mem_singleton] at hmem
                  exact hgrest (hmem ▸ h2))
              (fun g2 h2 => hfs g2 (List.mem_cons_of_mem _ h2)) hinv2
          refine ⟨fs2, rd2, idx2, unc2, vec2, ?_, ?_, ?_, ?_, hrd, hvec, ?_⟩
          · rw [openLoop]
            rw [hfsg, hSg]
            exact hrun
          · intro k e
            rw [hmask k e]
            constructor
            · rintro ⟨h1, h2⟩
              refine ⟨h1, ?_⟩
              rcases h2 with h2 | h2
              · rcases List.mem_append.1 h2 with h2 | h2
                · exact Or.inl h2
                · simp only [List.mem_singleton] at h2
                  exact Or.inr (by simp [h2])
              · exact Or.inr (List.mem_cons_of_mem _ h2)
            · rintro ⟨h1, h2⟩
              refine ⟨h1, ?_⟩
              rcases h2 with h2 | h2
              · exact Or.inl (List.mem_append.2 (Or.inl h2))
              · rcases List.mem_cons.1 h2 with h2 | h2
                · exact absurd h2 (hnogen k e h1)
                · exact Or.inr h2
          · intro g2 h2 hne2
            rcases List.mem_cons.1 h2 with rfl | h2
            · rw [hSg] at hne2
              simp at hne2
            · exact hne g2 h2 hne2
          · intro g2 h2
            have : g2 ∉ rest := fun hh => h2 (List.mem_cons_of_mem _ hh)
            exact hunch g2 this
          · intro x hx
            rcases hvecb x hx with h | h
            · exact Or.inl h
            · exact Or.inr (List.mem_cons_of_mem _ h)
      | some c =>
          have hghost := lookupF_ghost hwf.wfFiles g
          rw [hSg] at hghost
          obtain ⟨rs, hrs, hcrs⟩ : ∃ rs, lookupG G g = some rs ∧ c = encFile rs := by
            cases hlg : lookupG G g with
            | none => rw [hlg] at hghost; simp at hghost
            | some rs =>
                rw [hlg] at hghost
                simp only [Option.map_some'] at hghost
                exact ⟨rs, rfl, Option.some_inj.1 hghost⟩
          by_cases hcz : c.length = 0
          · have hrsnil : rs = [] := by
              apply encFile_eq_nil
              rw [← hcrs]
              exact List.length_eq_zero.1 hcz
            have hnogen : ∀ k e, lookupIdx S.indexes k = some e → e.n ≠ g := by
              apply wf_no_gen_entry hwf
              intro rs2 hrs2
              rw [hrs] at hrs2
              rw [← Option.some_inj.1 hrs2]
              exact hrsnil
            have hinv2 : ∀ k e, lookupIdx idx k = some e ↔
                (lookupIdx S.indexes k = some e ∧ e.n ∈ done ++ [g]) := by
              intro k e
              rw [hinv k e]
              constructor
              · rintro ⟨h1, h2⟩; exact ⟨h1, by simp [h2]⟩
              · rintro ⟨h1, h2⟩
                refine ⟨h1, ?_⟩
                rcases List.mem_append.1 h2 with h2 | h2
                · exact h2
                · simp only [List.mem_singleton] at h2
                  exact absurd h2 (hnogen k e h1)
            obtain ⟨fs2, rd2, idx2, unc2, vec2, hrun, hmask, hne, hunch, hrd, hvec, hvecb⟩ :=
              ih (done ++ [g]) (eraseF fs g) rd idx unc vec hndr
                (fun g2 h2 => by
                  intro hmem
                  rcases List.mem_append.1 hmem with hmem | hmem
                  · exact hdisj g2 (List.mem_cons_of_mem _ h2) hmem
                  · simp only [List.mem_singleton] at hmem
                    exact hgrest (hmem ▸ h2))
                (fun g2 h2 => by
                  rw [lookupF_eraseF_ne fs (fun hh => hgrest (by rw [hh]; exact h2))]
                  exact hfs g2 (List.mem_cons_of_mem _ h2))
                hinv2
            refine ⟨fs2, rd2, idx2, unc2, vec2, ?_, ?_, ?_, ?_, hrd, hvec, ?_⟩
            · rw [openLoop, hfsg, hSg]
              simp only [if_pos hcz]
              exact hrun
            · intro k e
              rw [hmask k e]
              constructor
              · rintro ⟨h1, h2⟩
                refine ⟨h1, ?_⟩
                rcases h2 with h2 | h2
                · rcases List.mem_append.1 h2 with h2 | h2
                  · exact Or.inl h2
                  · simp only [List.mem_singleton] at h2
                    exact Or.inr (by simp [h2])
                · exact Or.inr (List.mem_cons_of_mem _ h2)
              · rintro ⟨h1, h2⟩
                refine ⟨h1, ?_⟩
                rcases h2 with h2 | h2
                · exact Or.inl (List.mem_append.2 (Or.inl h2))
                · rcases List.mem_cons.1 h2 with h2 | h2
                  · exact absurd h2 (hnogen k e h1)
                  · exact Or.inr h2
            · intro g2 h2 hne2
              rcases List.mem_cons.1 h2 with rfl | h2
              · rw [hSg] at hne2
                simp only [Option.getD_some] at hne2
                exact absurd hcz hne2
              · exact hne g2 h2 hne2
            · intro g2 h2
              have hnr : g2 ∉ rest := fun hh => h2 (List.mem_cons_of_mem _ hh)
              rw [hunch g2 hnr]
              exact lookupF_eraseF_ne fs (fun hh => h2 (hh ▸ List.mem_cons_self _ _))
            · intro x hx
              rcases hvecb x hx with h | h
              · exact Or.inl h
              · exact Or.inr (List.mem_cons_of_mem _ h)
          · -- non-empty segment: replay it
            have hmemG := lookupG_mem hrs
            have hbounds : ∀ r ∈ rs, RecOK r := fun r hr => hwf.wfRecOK g rs hrs r hr
            have hnd2 := wf_live_unique hwf hrs
            have habs : ∀ r ∈ rs, r.t ≠ 0 → lookupIdx idx r.k = none := by
              intro r hr htr
              obtain ⟨i, hi, hri⟩ := exists_recAt hr
              cases hlk : lookupIdx idx r.k with
              | none => rfl
              | some e =>
                  obtain ⟨h1, h2⟩ := (hinv r.k e).1 hlk
                  have hlive := hwf.wfLive g rs hrs i hi (by rw [hri]; exact htr)
                  rw [hri] at hlive
                  rw [h1] at hlive
                  have hng : e.n = g := by
                    have := congrArg DataIndex.n (Option.some_inj.1 hlive)
                    simpa [entryAt] using this
                  exact ((hdisj g (List.mem_cons_self _ _)) (hng ▸ h2)).elim
            have hstop : read_item g c (([] : Bytes).length + (encFile rs).length) = none := by
              apply read_item_short
              rw [hcrs]
              simp
            have hreplay := replayFuel_clean g c [] rs [] (c.length + 1) ⟨fs, rd, idx, unc⟩
              (by rw [hcrs]; simp)
              (by
                have h1 := length_le_length_encFile rs
                rw [hcrs]
                omega)
              hbounds habs hnd2 hstop
            have hlen0 : ([] : Bytes).length = 0 := rfl
            rw [hlen0] at hreplay
            have hinv2 : ∀ k e, lookupIdx (replayPure g 0 idx rs) k = some e ↔
                (lookupIdx S.indexes k = some e ∧ e.n ∈ done ++ [g]) := by
              intro k e
              constructor
              · intro hlk
                by_cases hex : ∃ i, i < rs.length ∧ (recAt rs i).t ≠ 0 ∧ (recAt rs i).k = k
                · obtain ⟨i, hi, hlive, hkey⟩ := hex
                  have := replayPure_lookup_live g rs 0 idx i hi hlive hnd2
                  rw [hkey] at this
                  rw [this] at hlk
                  have he := Option.some_inj.1 hlk
                  have hwl := hwf.wfLive g rs hrs i hi hlive
                  rw [hkey] at hwl
                  refine ⟨?_, ?_⟩
                  · rw [hwl]
                    rw [← he]
                    simp [entryAt]
                  · rw [← he]
                    simp
                · have habs2 : ∀ r ∈ rs, r.t ≠ 0 → r.k ≠ k := by
                    intro r hr htr hkr
                    obtain ⟨i, hi, hri⟩ := exists_recAt hr
                    exact hex ⟨i, hi, by rw [hri]; exact htr, by rw [hri]; exact hkr⟩
                  rw [replayPure_lookup_absent g rs 0 idx k habs2] at hlk
                  obtain ⟨h1, h2⟩ := (hinv k e).1 hlk
                  exact ⟨h1, by simp [h2]⟩
              · rintro ⟨h1, h2⟩
                rcases List.mem_append.1 h2 with h2 | h2
                · have habs2 : ∀ r ∈ rs, r.t ≠ 0 → r.k ≠ k := by
                    intro r hr htr hkr
                    obtain ⟨i, hi, hri⟩ := exists_recAt hr
                    have hwl := hwf.wfLive g rs hrs i hi (by rw [hri]; exact htr)
                    rw [hri, hkr] at hwl
                    rw [h1] at hwl
                    have hng : e.n = g := by
                      have := congrArg DataIndex.n (Option.some_inj.1 hwl)
                      simpa [entryAt] using this
                    exact hdisj g (List.mem_cons_self _ _) (hng ▸ h2)
                  rw [replayPure_lookup_absent g rs 0 idx k habs2]
                  exact (hinv k e).2 ⟨h1, h2⟩
                · simp only [List.mem_singleton] at h2
                  obtain ⟨rs2, i, hrs2, hi, hki, hti, hei⟩ := hwf.wfEntry k e h1
                  rw [h2, hrs] at hrs2
                  have hrseq := Option.some_inj.1 hrs2
                  subst hrseq
                  have := replayPure_lookup_live g rs 0 idx i hi hti hnd2
                  rw [hki] at this
                  rw [this]
                  rw [hei, h2]
                  simp [entryAt]
            obtain ⟨fs2, rd2, idx2, unc2, vec2, hrun, hmask, hne, hunch, hrd, hvec, hvecb⟩ :=
              ih (done ++ [g]) fs (readersInsert rd g) (replayPure g 0 idx rs)
                (unc + deadLen rs) (vec ++ [g]) hndr
                (fun g2 h2 => by
                  intro hmem
                  rcases List.mem_append.1 hmem with hmem | hmem
                  · exact hdisj g2 (List.mem_cons_of_mem _ h2) hmem
                  · simp only [List.mem_singleton] at hmem
                    exact hgrest (hmem ▸ h2))
                (fun g2 h2 => hfs g2 (List.mem_cons_of_mem _ h2))
                hinv2
            refine ⟨fs2, rd2, idx2, unc2, vec2, ?_, ?_, ?_, ?_, ?_, ?_, ?_⟩
            · rw [openLoop, hfsg, hSg]
              simp only [if_neg hcz]
              rw [hreplay]
              exact hrun
            · intro k e
              rw [hmask k e]
              constructor
              · rintro ⟨h1, h2⟩
                refine ⟨h1, ?_⟩
                rcases h2 with h2 | h2
                · rcases List.mem_append.1 h2 with h2 | h2
                  · exact Or.inl h2
                  · simp only [List.mem_singleton] at h2
                    exact Or.inr (by simp [h2])
                · exact Or.inr (List.mem_cons_of_mem _ h2)
              · rintro ⟨h1, h2⟩
                refine ⟨h1, ?_⟩
                rcases h2 with h2 | h2
                · exact Or.inl (List.mem_append.2 (Or.inl h2))
                · rcases List.mem_cons.1 h2 with h2 | h2
                  · exact Or.inl (List.mem_append.2 (Or.inr (by simp [h2])))
                  · exact Or.inr h2
            · intro g2 h2 hne2
              rcases List.mem_cons.1 h2 with rfl | h2
              · refine ⟨?_, ?_, ?_⟩
                · rw [hunch g2 hgrest]
                  exact hfsg
                · exact hrd g2 (mem_readersInsert.2 (Or.inr rfl))
                · exact hvec g2 (List.mem_append.2 (Or.inr (by simp)))
              · exact hne g2 h2 hne2
            · intro g2 h2
              have hnr : g2 ∉ rest := fun hh => h2 (List.mem_cons_of_mem _ hh)
              exact hunch g2 hnr
            · intro x hx
              exact hrd x (mem_readersInsert.2 (Or.inl hx))
            · intro x hx
              exact hvec x (List.mem_append.2 (Or.inl hx))
            · intro x hx
              rcases hvecb x hx with h | h
              · rcases List.mem_append.1 h with h | h
                · exact Or.inl h
                · simp only [List.mem_singleton] at h
                  exact Or.inr (by simp [h])
              · exact Or.inr (List.mem_cons_of_mem _ h)

theorem wf_entry_gen_mem {S : KvStore} {G : List (Nat × List Rec)} (hwf : WF S G)
    {k : Bytes} {e : DataIndex} (hk : lookupIdx S.indexes k = some e) :
    e.n ∈ S.files.map Prod.fst := by
  obtain ⟨rs, i, hrs, _⟩ := hwf.wfEntry k e hk
  rw [keys_ghost hwf.wfFiles, mem_keys_lookupG, hrs]
  rfl

theorem wf_entry_nonempty {S : KvStore} {G : List (Nat × List Rec)} (hwf : WF S G)
    {k : Bytes} {e : DataIndex} (hk : lookupIdx S.indexes k = some e) :
    ((lookupF S.files e.n).getD []).length ≠ 0 := by
  obtain ⟨rs, i, hrs, hi, _⟩ := hwf.wfEntry k e hk
  rw [lookupF_ghost hwf.wfFiles, hrs]
  simp only [Option.map_some', Option.getD_some]
  have h1 := length_le_length_encFile rs
  omega

theorem openA_refines (S : KvStore) (G : List (Nat × List Rec)) (hwf : WF S G) :
    ∃ S2, openA S.files = some S2 ∧
      (∀ k, lookupIdx S2.indexes k = lookupIdx S.indexes k) ∧
      (∀ k e, lookupIdx S.indexes k = some e →
        e.n ∈ S2.readers ∧ lookupF S2.files e.n = lookupF S.files e.n) := by
  have hND : (List.insertionSort (fun a b => a ≤ b) (S.files.map Prod.fst)).Nodup :=
    ((List.perm_insertionSort (fun a b => a ≤ b) (S.files.map Prod.fst)).nodup_iff).2 hwf.wfNodup
  have hmemsort : ∀ x : Nat, x ∈ List.insertionSort (fun a b => a ≤ b) (S.files.map Prod.fst) ↔
      x ∈ S.files.map Prod.fst :=
    fun x => (List.perm_insertionSort (fun a b => a ≤ b) (S.files.map Prod.fst)).mem_iff
  obtain ⟨fs2, rd2, idx2, unc2, vec2, hrun, hmask, hne, hunch, hrd, hvec, hvecb⟩ :=
    openLoop_clean S G hwf (List.insertionSort (fun a b => a ≤ b) (S.files.map Prod.fst))
      [] S.files [] [] 0 [] hND (by simp) (fun g _ => rfl)
      (by intro k e; simp [lookupIdx])
  refine ⟨{ nth := (List.insertionSort (fun a b => a ≤ b) vec2).getLastD 0 + 1,
            readers := readersInsert rd2 ((List.insertionSort (fun a b => a ≤ b) vec2).getLastD 0 + 1),
            indexes := idx2,
            files := createF fs2 ((List.insertionSort (fun a b => a ≤ b) vec2).getLastD 0 + 1),
            uncompacted := unc2 }, ?_, ?_, ?_⟩
  · unfold openA openCore
    rw [hrun]
  · intro k
    cases hk : lookupIdx S.indexes k with
    | none =>
        cases hk2 : lookupIdx idx2 k with
        | none => rfl
        | some e2 =>
            obtain ⟨h1, _⟩ := (hmask k e2).1 hk2
            rw [hk] at h1
            exact h1.symm
    | some e =>
        apply (hmask k e).2
        refine ⟨hk, Or.inr ?_⟩
        rw [hmemsort]
        exact wf_entry_gen_mem hwf hk
  · intro k e hk
    have hgens : e.n ∈ List.insertionSort (fun a b => a ≤ b) (S.files.map Prod.fst) := by
      rw [hmemsort]
      exact wf_entry_gen_mem hwf hk
    obtain ⟨hf2, hr2, hv2⟩ := hne e.n hgens (wf_entry_nonempty hwf hk)
    have hlt : e.n < (List.insertionSort (fun a b => a ≤ b) vec2).getLastD 0 + 1 := by
      have := mem_le_sort_getLastD hv2
      omega
    constructor
    · exact mem_readersInsert.2 (Or.inl hr2)
    · rw [lookupF_createF_ne (by omega)]
      exact hf2

theorem openA_get_eq (S : KvStore) (G : List (Nat × List Rec)) (hwf : WF S G) :
    ∃ S2, openA S.files = some S2 ∧ ∀ k, S2.get k = S.get k := by
  obtain ⟨S2, hopen, hlk, hent⟩ := openA_refines S G hwf
  refine ⟨S2, hopen, ?_⟩
  intro k
  unfold KvStore.get
  rw [hlk k]
  cases hk : lookupIdx S.indexes k with
  | none => rfl
  | some e =>
      obtain ⟨hrd2, hfs2⟩ := hent k e hk
      have hrdS : e.n ∈ S.readers := (hwf.wfReaders e.n).2 (wf_entry_gen_mem hwf hk)
      simp only [hfs2, if_pos hrd2, if_pos hrdS]

theorem lookupG_updateG_self (G : List (Nat × List Rec)) (n : Nat) (rs : List Rec) :
    lookupG (updateG G n rs) n = some rs := by
  induction G with
  | nil => simp [updateG, lookupG]
  | cons hd tl ih =>
      obtain ⟨g, rs0⟩ := hd
      by_cases hg : g = n
      · simp [updateG, hg, lookupG]
      · simp [updateG, hg, lookupG, ih]

theorem lookupG_updateG_ne (G : List (Nat × List Rec)) {n m : Nat} (rs : List Rec)
    (h : n ≠ m) : lookupG (updateG G n rs) m = lookupG G m := by
  induction G with
  | nil => simp [updateG, lookupG, h]
  | cons hd tl ih =>
      obtain ⟨g, rs0⟩ := hd
      by_cases hg : g = n
      · subst hg; simp [updateG, lookupG, h, if_neg h]
      · simp [updateG, hg, lookupG, ih]

theorem mem_updateG {G : List (Nat × List Rec)} {n : Nat} {rs : List Rec} {gr : Nat × List Rec}
    (h : gr ∈ updateG G n rs) : gr = (n, rs) ∨ gr ∈ G := by
  induction G with
  | nil => simpa [updateG] using h
  | cons hd tl ih =>
      obtain ⟨g, rs0⟩ := hd
      by_cases hg : g = n
      · simp only [updateG, if_pos hg, List.mem_cons] at h
        rcases h with h | h
        · exact Or.inl h
        · exact Or.inr (List.mem_cons_of_mem _ h)
      · simp only [updateG, if_neg hg, List.mem_cons] at h
        rcases h with h | h
        · exact Or.inr (by simp [h])
        · rcases ih h with h | h
          · exact Or.inl h
          · exact Or.inr (List.mem_cons_of_mem _ h)

theorem forall2_updateFG {fs : List (Nat × Bytes)} {G : List (Nat × List Rec)}
    (h : List.Forall₂ (fun (fc : Nat × Bytes) (gr : Nat × List Rec) =>
      fc.1 = gr.1 ∧ fc.2 = encFile gr.2) fs G) (n : Nat) (rs : List Rec) :
    List.Forall₂ (fun (fc : Nat × Bytes) (gr : Nat × List Rec) =>
      fc.1 = gr.1 ∧ fc.2 = encFile gr.2) (updateF fs n (encFile rs)) (updateG G n rs) := by
  induction h with
  | nil => exact List.Forall₂.cons ⟨rfl, rfl⟩ List.Forall₂.nil
  | cons hr hrest ih =>
      rename_i a b fs2 G2
      obtain ⟨ga, ca⟩ := a
      obtain ⟨gb, rsb⟩ := b
      obtain ⟨hfst, hsnd⟩ := hr
      simp only [] at hfst hsnd
      subst hfst
      by_cases hg : ga = n
      · simp only [updateF, updateG, if_pos hg]
        exact List.Forall₂.cons ⟨rfl, rfl⟩ hrest
      · simp only [updateF, updateG, if_neg hg]
        exact List.Forall₂.cons ⟨rfl, hsnd⟩ ih

theorem encLen_zeroRec (r : Rec) : encLen (zeroRec r) = encLen r := rfl

theorem length_encFile_sum (rs : List Rec) : (encFile rs).length = (rs.map encLen).sum := by
  induction rs with
  | nil => simp [encFile_nil]
  | cons r rest ih => simp [encFile_cons, enc_length, ih]

theorem map_encLen_set_zero (rs : List Rec) (i : Nat) :
    (rs.set i (zeroRec (recAt rs i))).map encLen = rs.map encLen := by
  rw [List.map_set, encLen_zeroRec]
  by_cases hi : i < rs.length
  · rw [recAt_eq hi]
    apply List.ext_getElem
    · simp
    · intro j h1 h2
      by_cases hij : i = j
      · subst hij
        rw [List.getElem_set_self (by simpa using h1)]
        simp
      · rw [List.getElem_set_ne hij]
  · have h1 : rs.set i (zeroRec (recAt rs i)) = rs := List.set_eq_of_length_le (by omega)
    have h2 : (rs.map encLen).set i (encLen (recAt rs i)) = rs.map encLen :=
      List.set_eq_of_length_le (by simp; omega)
    rw [h2]

theorem encFile_length_set_zero (rs : List Rec) (i : Nat) :
    (encFile (rs.set i (zeroRec (recAt rs i)))).length = (encFile rs).length := by
  rw [length_encFile_sum, length_encFile_sum, map_encLen_set_zero]

theorem encFile_take_length_set_zero (rs : List Rec) (i j : Nat) :
    (encFile ((rs.set i (zeroRec (recAt rs i))).take j)).length =
      (encFile (rs.take j)).length := by
  rw [length_encFile_sum, length_encFile_sum, List.map_take, List.map_take,
    map_encLen_set_zero]

theorem recAt_set_ne (rs : List Rec) (x : Rec) {i j : Nat} (h : i ≠ j) :
    recAt (rs.set i x) j = recAt rs j := by
  by_cases hj : j < rs.length
  · rw [recAt_eq (by simpa using hj), recAt_eq hj]
    simp only [List.get_eq_getElem]
    exact List.getElem_set_ne h _
  · unfold recAt
    rw [List.drop_eq_nil_of_le (by simp; omega), List.drop_eq_nil_of_le (by omega)]

theorem recAt_append_left {rs : List Rec} (more : List Rec) {j : Nat} (h : j < rs.length) :
    recAt (rs ++ more) j = recAt rs j := by
  rw [recAt_eq (by simp; omega), recAt_eq h]
  simp only [List.get_eq_getElem]
  exact List.getElem_append_left h

theorem entryAt_set_zero_ne (g : Nat) (rs : List Rec) {i j : Nat} (h : i ≠ j) :
    entryAt g (rs.set i (zeroRec (recAt rs i))) j = entryAt g rs j := by
  unfold entryAt
  rw [encFile_take_length_set_zero, recAt_set_ne rs _ h]

theorem entryAt_append_left (g : Nat) {rs : List Rec} (more : List Rec) {j : Nat}
    (h : j < rs.length) : entryAt g (rs ++ more) j = entryAt g rs j := by
  unfold entryAt
  rw [recAt_append_left more h, List.take_append_of_le_length (by omega), ]

theorem entry_pos_bound {rs : List Rec} {i : Nat} (h : i < rs.length) :
    (encFile (rs.take i)).length + encLen (recAt rs i) ≤ (encFile rs).length := by
  rw [encFile_decomp h]
  simp [enc_length]

theorem keys_updateG_present {G : List (Nat × List Rec)} {n : Nat} (rs : List Rec)
    (h : (lookupG G n).isSome) :
    (updateG G n rs).map Prod.fst = G.map Prod.fst := by
  induction G with
  | nil => simp [lookupG] at h
  | cons hd tl ih =>
      obtain ⟨g, rs0⟩ := hd
      by_cases hg : g = n
      · subst hg; simp [updateG]
      · simp only [lookupG, if_neg hg] at h
        simp [updateG, hg, ih h]

theorem mem_updateG_strong :
    ∀ (G : List (Nat × List Rec)), (G.map Prod.fst).Nodup →
    ∀ {n : Nat} {rs : List Rec} {gr : Nat × List Rec},
    gr ∈ updateG G n rs → gr = (n, rs) ∨ (gr ∈ G ∧ gr.1 ≠ n) := by
  intro G
  induction G with
  | nil =>
      intro _ n rs gr h
      simp only [updateG, List.mem_singleton] at h
      exact Or.inl h
  | cons hd tl ih =>
      intro hnd n rs gr h
      obtain ⟨g, rs0⟩ := hd
      simp only [List.map_cons, List.nodup_cons] at hnd
      by_cases hg : g = n
      · subst hg
        simp only [updateG, eq_self_iff_true, if_true, List.mem_cons] at h
        rcases h with h | h
        · exact Or.inl h
        · right
          refine ⟨List.mem_cons_of_mem _ h, ?_⟩
          intro hgr
          exact hnd.1 (hgr ▸ List.mem_map_of_mem Prod.fst h)
      · simp only [updateG, if_neg hg, List.mem_cons] at h
        rcases h with h | h
        · right
          refine ⟨by simp [h], ?_⟩
          rw [h]
          exact hg
        · rcases ih hnd.2 h with h2 | h2
          · exact Or.inl h2
          · exact Or.inr ⟨List.mem_cons_of_mem _ h2.1, h2.2⟩


theorem recAt_set_self {rs : List Rec} {i : Nat} (x : Rec) (h : i < rs.length) :
    recAt (rs.set i x) i = x := by
  rw [recAt_eq (by simpa using h)]
  simp only [List.get_eq_getElem]
  exact List.getElem_set_self (by simpa using h)

theorem encFile_singleton (r : Rec) : encFile [r] = r.enc := by
  simp [encFile]

theorem recAt_append_self (rs : List Rec) (r : Rec) :
    recAt (rs ++ [r]) rs.length = r := by
  unfold recAt
  rw [List.drop_left]
  rfl

theorem entryAt_append_new (g : Nat) (rs : List Rec) (r : Rec) :
    entryAt g (rs ++ [r]) rs.length = ⟨g, (encFile rs).length, encLen r, r.t⟩ := by
  unfold entryAt
  rw [recAt_append_self, List.take_left]

theorem set_len_eq {k v : Bytes} (h : k.length + v.length + 17 ≤ 2 ^ 32) :
    (16 + (k.length + v.length) % 2 ^ 32) % 2 ^ 32 = 16 + k.length + v.length := by
  have h1 : (k.length + v.length) % 2 ^ 32 = k.length + v.length :=
    Nat.mod_eq_of_lt (by omega)
  rw [h1, Nat.mod_eq_of_lt (by omega)]
  omega

theorem remove_item_ghost {fs : List (Nat × Bytes)} {G : List (Nat × List Rec)}
    (h : List.Forall₂ (fun (fc : Nat × Bytes) (gr : Nat × List Rec) =>
      fc.1 = gr.1 ∧ fc.2 = encFile gr.2) fs G) {n i : Nat} {rs : List Rec}
    (hrs : lookupG G n = some rs) (hi : i < rs.length) :
    List.Forall₂ (fun (fc : Nat × Bytes) (gr : Nat × List Rec) =>
      fc.1 = gr.1 ∧ fc.2 = encFile gr.2)
      (remove_item fs n (encFile (rs.take i)).length) (zeroG G n i) := by
  have hf : lookupF fs n = some (encFile rs) := by
    rw [lookupF_ghost h, hrs]
    rfl
  unfold remove_item zeroG
  rw [hf, hrs]
  show List.Forall₂ _
    (updateF fs n (overwriteAt (encFile rs) ((encFile (rs.take i)).length) (toLE 8 0)))
    (updateG G n (rs.set i (zeroRec (recAt rs i))))
  rw [overwriteAt_encFile hi]
  exact forall2_updateFG h n _

theorem keys_remove_item (fs : List (Nat × Bytes)) (n pos : Nat) :
    (remove_item fs n pos).map Prod.fst = fs.map Prod.fst := by
  unfold remove_item
  cases h : lookupF fs n with
  | none => rfl
  | some c => exact keys_updateF_present fs _ (by rw [h]; rfl)

theorem take_len_inj {rs : List Rec} {i j : Nat} (hi : i < rs.length) (hj : j < rs.length)
    (h : (encFile (rs.take i)).length = (encFile (rs.take j)).length) : i = j := by
  rcases Nat.lt_trichotomy i j with hlt | heq | hgt
  · exact absurd h (Nat.ne_of_lt (encFile_take_length_lt hlt (by omega)))
  · exact heq
  · exact absurd h.symm (Nat.ne_of_lt (encFile_take_length_lt hgt (by omega)))

theorem mem_lookupG {G : List (Nat × List Rec)} (hnd : (G.map Prod.fst).Nodup)
    {gr : Nat × List Rec} (h : gr ∈ G) : lookupG G gr.1 = some gr.2 := by
  induction G with
  | nil => simp at h
  | cons hd tl ih =>
      obtain ⟨g, rs0⟩ := hd
      simp only [List.map_cons, List.nodup_cons] at hnd
      rcases List.mem_cons.1 h with rfl | h2
      · simp [lookupG]
      · have hne : g ≠ gr.1 := by
          intro he
          exact hnd.1 (he ▸ List.mem_map_of_mem Prod.fst h2)
        simp only [lookupG, if_neg hne]
        exact ih hnd.2 h2

theorem lookupG_zeroG_of_some {G : List (Nat × List Rec)} {n : Nat} {rs : List Rec} (i : Nat)
    (h : lookupG G n = some rs) :
    zeroG G n i = updateG G n (rs.set i (zeroRec (recAt rs i))) := by
  unfold zeroG
  rw [h]

theorem wf_set (S : KvStore) (G : List (Nat × List Rec)) (hwf : WF S G) (k v : Bytes) (t : Nat)
    (ht0 : 0 < t) (ht : t < 2 ^ 64) (hkv : k.length + v.length + 17 ≤ 2 ^ 32) :
    ∃ G2, WF (S.set k v t) G2 := by
  obtain ⟨rs0, hrs0⟩ : ∃ rs0, lookupG G S.nth = some rs0 := by
    have hnthG : (lookupG G S.nth).isSome := by
      rw [← mem_keys_lookupG, ← keys_ghost hwf.wfFiles]
      exact hwf.wfNth
    cases hx : lookupG G S.nth with
    | none => rw [hx] at hnthG; simp at hnthG
    | some rs0 => exact ⟨rs0, rfl⟩
  have hc : lookupF S.files S.nth = some (encFile rs0) := by
    rw [lookupF_ghost hwf.wfFiles, hrs0]
    rfl
  have henc : encFile rs0 ++ recordBytes t k v = encFile (rs0 ++ [(⟨t, k, v⟩ : Rec)]) := by
    rw [encFile_append, encFile_singleton]
    rfl
  have hnewOK : RecOK ⟨t, k, v⟩ := ⟨hkv, ht⟩
  have htne : t ≠ 0 := by omega
  cases hold : lookupIdx S.indexes k with
  | none =>
      refine ⟨updateG G S.nth (rs0 ++ [⟨t, k, v⟩]), ?_⟩
      have hstore : S.set k v t = { S with
          files := updateF S.files S.nth (encFile (rs0 ++ [(⟨t, k, v⟩ : Rec)])),
          indexes := insertIdx S.indexes k
            ⟨S.nth, (encFile rs0).length, 16 + k.length + v.length, t⟩ } := by
        unfold KvStore.set
        rw [hc]
        simp only [Option.getD_some]
        rw [hold, henc, set_len_eq hkv]
      rw [hstore]
      have hkeys1 : (updateF S.files S.nth (encFile (rs0 ++ [(⟨t, k, v⟩ : Rec)]))).map Prod.fst
          = S.files.map Prod.fst := keys_updateF_present _ _ (by rw [hc]; rfl)
      refine ⟨forall2_updateFG hwf.wfFiles S.nth _, ?_, ?_, ?_, ?_, ?_, ?_, ?_⟩
      · show ((updateF S.files S.nth (encFile (rs0 ++ [(⟨t, k, v⟩ : Rec)]))).map Prod.fst).Nodup
        rw [hkeys1]
        exact hwf.wfNodup
      · intro g
        show g ∈ S.readers ↔
          g ∈ (updateF S.files S.nth (encFile (rs0 ++ [(⟨t, k, v⟩ : Rec)]))).map Prod.fst
        rw [hkeys1]
        exact hwf.wfReaders g
      · show S.nth ∈ (updateF S.files S.nth (encFile (rs0 ++ [(⟨t, k, v⟩ : Rec)]))).map Prod.fst
        rw [hkeys1]
        exact hwf.wfNth
      · intro g rs hg r hr
        by_cases hgn : g = S.nth
        · subst hgn
          rw [lookupG_updateG_self] at hg
          rw [← Option.some_inj.1 hg] at hr
          rcases List.mem_append.1 hr with hr | hr
          · exact hwf.wfRecOK S.nth rs0 hrs0 r hr
          · simp only [List.mem_singleton] at hr
            rw [hr]
            exact hnewOK
        · rw [lookupG_updateG_ne _ _ (fun hh => hgn hh.symm)] at hg
          exact hwf.wfRecOK g rs hg r hr
      · intro g rs hg j hj hlive
        by_cases hgn : g = S.nth
        · subst hgn
          rw [lookupG_updateG_self] at hg
          have hreq : rs = rs0 ++ [⟨t, k, v⟩] := (Option.some_inj.1 hg).symm
          subst hreq
          by_cases hjr : j = rs0.length
          · subst hjr
            rw [recAt_append_self]
            rw [entryAt_append_new]
            exact lookupIdx_insertIdx_self _ _ _
          · have hjlt : j < rs0.length := by
              simp only [List.length_append, List.length_singleton] at hj
              omega
            rw [recAt_append_left _ hjlt] at hlive ⊢
            rw [entryAt_append_left _ _ hjlt]
            have hL := hwf.wfLive S.nth rs0 hrs0 j hjlt hlive
            have hkne : (recAt rs0 j).k ≠ k := by
              intro hk
              rw [hk, hold] at hL
              exact Option.noConfusion hL
            rw [lookupIdx_insertIdx_ne _ _ (Ne.symm hkne)]
            exact hL
        · rw [lookupG_updateG_ne _ _ (fun hh => hgn hh.symm)] at hg
          have hL := hwf.wfLive g rs hg j hj hlive
          have hkne : (recAt rs j).k ≠ k := by
            intro hk
            rw [hk, hold] at hL
            exact Option.noConfusion hL
          rw [lookupIdx_insertIdx_ne _ _ (Ne.symm hkne)]
          exact hL
      · intro k2 e he
        by_cases hk2 : k2 = k
        · subst hk2
          rw [lookupIdx_insertIdx_self] at he
          have he2 := (Option.some_inj.1 he).symm
          refine ⟨rs0 ++ [⟨t, k2, v⟩], rs0.length, ?_, by simp, ?_, ?_, ?_⟩
          · rw [he2]
            exact lookupG_updateG_self G S.nth _
          · rw [recAt_append_self]
          · rw [recAt_append_self]
            exact htne
          · rw [he2, entryAt_append_new]
            rfl
        · rw [lookupIdx_insertIdx_ne _ _ (fun hh => hk2 hh.symm)] at he
          obtain ⟨rs1, j, hrs1, hj, hkey, hlivej, heq⟩ := hwf.wfEntry k2 e he
          by_cases hen : e.n = S.nth
          · rw [hen, hrs0] at hrs1
            have hreq : rs1 = rs0 := Option.some_inj.1 hrs1.symm
            subst hreq
            refine ⟨rs1 ++ [⟨t, k, v⟩], j, ?_, by simp; omega, ?_, ?_, ?_⟩
            · rw [hen]
              exact lookupG_updateG_self G S.nth _
            · rw [recAt_append_left _ hj]
              exact hkey
            · rw [recAt_append_left _ hj]
              exact hlivej
            · rw [entryAt_append_left _ _ hj]
              exact heq
          · refine ⟨rs1, j, ?_, hj, hkey, hlivej, heq⟩
            rw [lookupG_updateG_ne _ _ (fun hh => hen hh.symm)]
            exact hrs1
      · show ((insertIdx S.indexes k _).map Prod.fst).Nodup
        exact idxNodup_insertIdx _ _ _ hwf.wfIdxNodup
  | some old =>
      obtain ⟨rs1, i, hrs1, hi, hkey1, hlive1, heq1⟩ := hwf.wfEntry k old hold
      have hro : old.n ∈ S.readers := (hwf.wfReaders old.n).2 (wf_entry_gen_mem hwf hold)
      have hpos1 : old.pos = (encFile (rs1.take i)).length := by
        have := congrArg DataIndex.pos heq1
        simpa [entryAt] using this
      have hstore : S.set k v t = { S with
          files := remove_item (updateF S.files S.nth (encFile (rs0 ++ [(⟨t, k, v⟩ : Rec)])))
            old.n old.pos,
          indexes := insertIdx S.indexes k
            ⟨S.nth, (encFile rs0).length, 16 + k.length + v.length, t⟩,
          uncompacted := S.uncompacted + old.len } := by
        unfold KvStore.set
        rw [hc]
        simp only [Option.getD_some]
        rw [hold]
        simp only [if_pos hro]
        rw [henc, set_len_eq hkv]
      rw [hstore]
      have hkeys1 : (updateF S.files S.nth (encFile (rs0 ++ [(⟨t, k, v⟩ : Rec)]))).map Prod.fst
          = S.files.map Prod.fst := keys_updateF_present _ _ (by rw [hc]; rfl)
      have hkeys2 : (remove_item (updateF S.files S.nth (encFile (rs0 ++ [(⟨t, k, v⟩ : Rec)])))
          old.n old.pos).map Prod.fst = S.files.map Prod.fst := by
        rw [keys_remove_item, hkeys1]
      have huniq : ∀ g rs j, lookupG G g = some rs → j < rs.length → (recAt rs j).t ≠ 0 →
          (recAt rs j).k = k → g = old.n ∧ j = i := by
        intro g rs j hg hj hlj hkj
        have hL := hwf.wfLive g rs hg j hj hlj
        rw [hkj, hold] at hL
        have heo : old = entryAt g rs j := Option.some_inj.1 hL
        have hgn : old.n = g := by
          have := congrArg DataIndex.n heo
          simpa [entryAt] using this
        refine ⟨hgn.symm, ?_⟩
        rw [← hgn] at hg
        rw [hrs1] at hg
        have hre : rs1 = rs := Option.some_inj.1 hg
        subst hre
        have hpe : (encFile (rs1.take i)).length = (encFile (rs1.take j)).length := by
          have h1 := congrArg DataIndex.pos heq1
          have h2 := congrArg DataIndex.pos heo
          simp only [entryAt] at h1 h2
          omega
        exact (take_len_inj hi hj hpe).symm
      by_cases hon : old.n = S.nth
      · have hr10 : rs1 = rs0 := by
          rw [hon, hrs0] at hrs1
          exact Option.some_inj.1 hrs1.symm
        subst hr10
        have hrsB : lookupG (updateG G S.nth (rs1 ++ [(⟨t, k, v⟩ : Rec)])) old.n =
            some (rs1 ++ [(⟨t, k, v⟩ : Rec)]) := by
          rw [hon]
          exact lookupG_updateG_self G S.nth _
        have htake : (rs1 ++ [(⟨t, k, v⟩ : Rec)]).take i = rs1.take i :=
          List.take_append_of_le_length (by omega)
        have hposB : old.pos = (encFile ((rs1 ++ [(⟨t, k, v⟩ : Rec)]).take i)).length := by
          rw [htake]
          exact hpos1
        have hiB : i < (rs1 ++ [(⟨t, k, v⟩ : Rec)]).length := by simp; omega
        have hrecB : recAt (rs1 ++ [(⟨t, k, v⟩ : Rec)]) i = recAt rs1 i :=
          recAt_append_left _ hi
        refine ⟨zeroG (updateG G S.nth (rs1 ++ [⟨t, k, v⟩])) old.n i,
          ?_, ?_, ?_, ?_, ?_, ?_, ?_, ?_⟩
        · show List.Forall₂ _ (remove_item _ old.n old.pos) _
          rw [hposB]
          exact remove_item_ghost (forall2_updateFG hwf.wfFiles S.nth _) hrsB hiB
        · show ((remove_item _ old.n old.pos).map Prod.fst).Nodup
          rw [hkeys2]
          exact hwf.wfNodup
        · intro g
          show g ∈ S.readers ↔ g ∈ (remove_item _ old.n old.pos).map Prod.fst
          rw [hkeys2]
          exact hwf.wfReaders g
        · show S.nth ∈ (remove_item _ old.n old.pos).map Prod.fst
          rw [hkeys2]
          exact hwf.wfNth
        · intro g rs hg r hr
          rw [lookupG_zeroG_of_some i hrsB] at hg
          by_cases hgo : g = old.n
          · subst hgo
            rw [lookupG_updateG_self] at hg
            rw [← Option.some_inj.1 hg] at hr
            rcases List.mem_or_eq_of_mem_set hr with hr | hr
            · rcases List.mem_append.1 hr with hr | hr
              · exact hwf.wfRecOK old.n rs1 hrs1 r hr
              · simp only [List.mem_singleton] at hr
                rw [hr]
                exact hnewOK
            · rw [hr, hrecB]
              obtain ⟨hb1, _⟩ := hwf.wfRecOK old.n rs1 hrs1 (recAt rs1 i) (recAt_mem hi)
              exact ⟨hb1, by simp [zeroRec]⟩
          · rw [lookupG_updateG_ne _ _ (fun hh => hgo hh.symm)] at hg
            by_cases hgn : g = S.nth
            · exact absurd (hgn.trans hon.symm) hgo
            · rw [lookupG_updateG_ne _ _ (fun hh => hgn hh.symm)] at hg
              exact hwf.wfRecOK g rs hg r hr
        · intro g rs hg j hj hlive
          rw [lookupG_zeroG_of_some i hrsB] at hg
          by_cases hgo : g = old.n
          · subst hgo
            rw [lookupG_updateG_self] at hg
            have hreq : rs = (rs1 ++ [(⟨t, k, v⟩ : Rec)]).set i
                (zeroRec (recAt (rs1 ++ [(⟨t, k, v⟩ : Rec)]) i)) := (Option.some_inj.1 hg).symm
            subst hreq
            by_cases hji : j = i
            · subst hji
              rw [recAt_set_self _ hiB] at hlive
              simp [zeroRec] at hlive
            · rw [recAt_set_ne _ _ (fun hh => hji hh.symm)] at hlive ⊢
              rw [entryAt_set_zero_ne _ _ (fun hh => hji hh.symm)]
              have hjB : j < (rs1 ++ [(⟨t, k, v⟩ : Rec)]).length := by
                simpa using hj
              by_cases hjr : j = rs1.length
              · subst hjr
                rw [recAt_append_self]
                rw [entryAt_append_new, hon]
                exact lookupIdx_insertIdx_self _ _ _
              · have hjlt : j < rs1.length := by
                  simp only [List.length_append, List.length_singleton] at hjB
                  omega
                rw [recAt_append_left _ hjlt] at hlive ⊢
                rw [entryAt_append_left _ _ hjlt]
                have hL := hwf.wfLive old.n rs1 hrs1 j hjlt hlive
                have hkne : (recAt rs1 j).k ≠ k := by
                  intro hk
                  obtain ⟨_, hji2⟩ := huniq old.n rs1 j hrs1 hjlt hlive hk
                  exact hji hji2
                rw [lookupIdx_insertIdx_ne _ _ (Ne.symm hkne)]
                exact hL
          · rw [lookupG_updateG_ne _ _ (fun hh => hgo hh.symm)] at hg
            by_cases hgn : g = S.nth
            · exact absurd (hgn.trans hon.symm) hgo
            · rw [lookupG_updateG_ne _ _ (fun hh => hgn hh.symm)] at hg
              have hL := hwf.wfLive g rs hg j hj hlive
              have hkne : (recAt rs j).k ≠ k := by
                intro hk
                obtain ⟨hgo2, _⟩ := huniq g rs j hg hj hlive hk
                exact hgo hgo2
              rw [lookupIdx_insertIdx_ne _ _ (Ne.symm hkne)]
              exact hL
        · intro k2 e he
          by_cases hk2 : k2 = k
          · subst hk2
            rw [lookupIdx_insertIdx_self] at he
            have he2 := (Option.some_inj.1 he).symm
            have henth : e.n = S.nth := by rw [he2]
            refine ⟨(rs1 ++ [(⟨t, k2, v⟩ : Rec)]).set i
              (zeroRec (recAt (rs1 ++ [(⟨t, k2, v⟩ : Rec)]) i)), rs1.length, ?_, ?_, ?_, ?_, ?_⟩
            · rw [lookupG_zeroG_of_some i hrsB, henth, ← hon]
              exact lookupG_updateG_self _ old.n _
            · simp only [List.length_set, List.length_append, List.length_singleton]
              omega
            · rw [recAt_set_ne _ _ (by omega), recAt_append_self]
            · rw [recAt_set_ne _ _ (by omega), recAt_append_self]
              exact htne
            · rw [entryAt_set_zero_ne _ _ (by omega), entryAt_append_new, he2]
              rfl
          · rw [lookupIdx_insertIdx_ne _ _ (fun hh => hk2 hh.symm)] at he
            obtain ⟨rs2, j, hrs2, hj, hkey2, hlivej, heq2⟩ := hwf.wfEntry k2 e he
            have hkne : (recAt rs2 j).k ≠ k := by rw [hkey2]; exact hk2
            by_cases hen : e.n = old.n
            · rw [hen, hrs1] at hrs2
              have hre : rs2 = rs1 := Option.some_inj.1 hrs2.symm
              subst hre
              have hji : j ≠ i := by
                intro hh
                rw [hh] at hkne
                exact hkne hkey1
              refine ⟨(rs2 ++ [(⟨t, k, v⟩ : Rec)]).set i
                (zeroRec (recAt (rs2 ++ [(⟨t, k, v⟩ : Rec)]) i)), j, ?_, ?_, ?_, ?_, ?_⟩
              · rw [lookupG_zeroG_of_some i hrsB, hen]
                exact lookupG_updateG_self _ old.n _
              · simp only [List.length_set, List.length_append, List.length_singleton]
                omega
              · rw [recAt_set_ne _ _ (fun hh => hji hh.symm), recAt_append_left _ hj]
                exact hkey2
              · rw [recAt_set_ne _ _ (fun hh => hji hh.symm), recAt_append_left _ hj]
                exact hlivej
              · rw [entryAt_set_zero_ne _ _ (fun hh => hji hh.symm),
                  entryAt_append_left _ _ hj]
                exact heq2
            · have hgn : e.n ≠ S.nth := fun hh => hen (hh.trans hon.symm)
              refine ⟨rs2, j, ?_, hj, hkey2, hlivej, heq2⟩
              rw [lookupG_zeroG_of_some i hrsB]
              rw [lookupG_updateG_ne _ _ (Ne.symm hen)]
              rw [lookupG_updateG_ne _ _ (Ne.symm hgn)]
              exact hrs2
        · show ((insertIdx S.indexes k _).map Prod.fst).Nodup
          exact idxNodup_insertIdx _ _ _ hwf.wfIdxNodup
      · have hrsB : lookupG (updateG G S.nth (rs0 ++ [(⟨t, k, v⟩ : Rec)])) old.n =
            some rs1 := by
          rw [lookupG_updateG_ne _ _ (fun hh => hon hh.symm)]
          exact hrs1
        refine ⟨zeroG (updateG G S.nth (rs0 ++ [⟨t, k, v⟩])) old.n i,
          ?_, ?_, ?_, ?_, ?_, ?_, ?_, ?_⟩
        · show List.Forall₂ _ (remove_item _ old.n old.pos) _
          rw [hpos1]
          exact remove_item_ghost (forall2_updateFG hwf.wfFiles S.nth _) hrsB hi
        · show ((remove_item _ old.n old.pos).map Prod.fst).Nodup
          rw [hkeys2]
          exact hwf.wfNodup
        · intro g
          show g ∈ S.readers ↔ g ∈ (remove_item _ old.n old.pos).map Prod.fst
          rw [hkeys2]
          exact hwf.wfReaders g
        · show S.nth ∈ (remove_item _ old.n old.pos).map Prod.fst
          rw [hkeys2]
          exact hwf.wfNth
        · intro g rs hg r hr
          rw [lookupG_zeroG_of_some i hrsB] at hg
          by_cases hgo : g = old.n
          · subst hgo
            rw [lookupG_updateG_self] at hg
            rw [← Option.some_inj.1 hg] at hr
            rcases List.mem_or_eq_of_mem_set hr with hr | hr
            · exact hwf.wfRecOK old.n rs1 hrs1 r hr
            · rw [hr]
              obtain ⟨hb1, _⟩ := hwf.wfRecOK old.n rs1 hrs1 (recAt rs1 i) (recAt_mem hi)
              exact ⟨hb1, by simp [zeroRec]⟩
          · rw [lookupG_updateG_ne _ _ (fun hh => hgo hh.symm)] at hg
            by_cases hgn : g = S.nth
            · subst hgn
              rw [lookupG_updateG_self] at hg
              rw [← Option.some_inj.1 hg] at hr
              rcases List.mem_append.1 hr with hr | hr
              · exact hwf.wfRecOK S.nth rs0 hrs0 r hr
              · simp only [List.mem_singleton] at hr
                rw [hr]
                exact hnewOK
            · rw [lookupG_updateG_ne _ _ (fun hh => hgn hh.symm)] at hg
              exact hwf.wfRecOK g rs hg r hr
        · intro g rs hg j hj hlive
          rw [lookupG_zeroG_of_some i hrsB] at hg
          by_cases hgo : g = old.n
          · subst hgo
            rw [lookupG_updateG_self] at hg
            have hreq : rs = rs1.set i (zeroRec (recAt rs1 i)) := (Option.some_inj.1 hg).symm
            subst hreq
            by_cases hji : j = i
            · subst hji
              rw [recAt_set_self _ hi] at hlive
              simp [zeroRec] at hlive
            · rw [recAt_set_ne _ _ (fun hh => hji hh.symm)] at hlive ⊢
              rw [entryAt_set_zero_ne _ _ (fun hh => hji hh.symm)]
              have hjlt : j < rs1.length := by simpa using hj
              have hL := hwf.wfLive old.n rs1 hrs1 j hjlt hlive
              have hkne : (recAt rs1 j).k ≠ k := by
                intro hk
                obtain ⟨_, hji2⟩ := huniq old.n rs1 j hrs1 hjlt hlive hk
                exact hji hji2
              rw [lookupIdx_insertIdx_ne _ _ (Ne.symm hkne)]
              exact hL
          · rw [lookupG_updateG_ne _ _ (fun hh => hgo hh.symm)] at hg
            by_cases hgn : g = S.nth
            · subst hgn
              rw [lookupG_updateG_self] at hg
              have hreq : rs = rs0 ++ [(⟨t, k, v⟩ : Rec)] := (Option.some_inj.1 hg).symm
              subst hreq
              by_cases hjr : j = rs0.length
              · subst hjr
                rw [recAt_append_self]
                rw [entryAt_append_new]
                exact lookupIdx_insertIdx_self _ _ _
              · have hjlt : j < rs0.length := by
                  simp only [List.length_append, List.length_singleton] at hj
                  omega
                rw [recAt_append_left _ hjlt] at hlive ⊢
                rw [entryAt_append_left _ _ hjlt]
                have hL := hwf.wfLive S.nth rs0 hrs0 j hjlt hlive
                have hkne : (recAt rs0 j).k ≠ k := by
                  intro hk
                  obtain ⟨hgo2, _⟩ := huniq S.nth rs0 j hrs0 hjlt hlive hk
                  exact hon hgo2.symm
                rw [lookupIdx_insertIdx_ne _ _ (Ne.symm hkne)]
                exact hL
            · rw [lookupG_updateG_ne _ _ (fun hh => hgn hh.symm)] at hg
              have hL := hwf.wfLive g rs hg j hj hlive
              have hkne : (recAt rs j).k ≠ k := by
                intro hk
                obtain ⟨hgo2, _⟩ := huniq g rs j hg hj hlive hk
                exact hgo hgo2
              rw [lookupIdx_insertIdx_ne _ _ (Ne.symm hkne)]
              exact hL
        · intro k2 e he
          by_cases hk2 : k2 = k
          · subst hk2
            rw [lookupIdx_insertIdx_self] at he
            have he2 := (Option.some_inj.1 he).symm
            have henth : e.n = S.nth := by rw [he2]
            refine ⟨rs0 ++ [⟨t, k2, v⟩], rs0.length, ?_, by simp, ?_, ?_, ?_⟩
            · have hz : zeroG (updateG G S.nth (rs0 ++ [(⟨t, k2, v⟩ : Rec)])) old.n i =
                  updateG (updateG G S.nth (rs0 ++ [(⟨t, k2, v⟩ : Rec)])) old.n
                    (rs1.set i (zeroRec (recAt rs1 i))) := lookupG_zeroG_of_some i hrsB
              rw [hz, henth]
              rw [lookupG_updateG_ne _ _ hon]
              exact lookupG_updateG_self G S.nth _
            · rw [recAt_append_self]
            · rw [recAt_append_self]
              exact htne
            · rw [entryAt_append_new, he2]
              rfl
          · rw [lookupIdx_insertIdx_ne _ _ (fun hh => hk2 hh.symm)] at he
            obtain ⟨rs2, j, hrs2, hj, hkey2, hlivej, heq2⟩ := hwf.wfEntry k2 e he
            have hkne : (recAt rs2 j).k ≠ k := by rw [hkey2]; exact hk2
            by_cases hen : e.n = old.n
            · rw [hen, hrs1] at hrs2
              have hre : rs2 = rs1 := Option.some_inj.1 hrs2.symm
              subst hre
              have hji : j ≠ i := by
                intro hh
                rw [hh] at hkne
                exact hkne hkey1
              refine ⟨rs2.set i (zeroRec (recAt rs2 i)), j, ?_, by simpa using hj, ?_, ?_, ?_⟩
              · rw [lookupG_zeroG_of_some i hrsB, hen]
                exact lookupG_updateG_self _ old.n _
              · rw [recAt_set_ne _ _ (fun hh => hji hh.symm)]
                exact hkey2
              · rw [recAt_set_ne _ _ (fun hh => hji hh.symm)]
                exact hlivej
              · rw [entryAt_set_zero_ne _ _ (fun hh => hji hh.symm)]
                exact heq2
            · by_cases hgn : e.n = S.nth
              · rw [hgn, hrs0] at hrs2
                have hre : rs2 = rs0 := Option.some_inj.1 hrs2.symm
                subst hre
                refine ⟨rs2 ++ [⟨t, k, v⟩], j, ?_, by simp; omega, ?_, ?_, ?_⟩
                · rw [lookupG_zeroG_of_some i hrsB]
                  rw [lookupG_updateG_ne _ _ (Ne.symm hen), hgn]
                  exact lookupG_updateG_self G S.nth _
                · rw [recAt_append_left _ hj]
                  exact hkey2
                · rw [recAt_append_left _ hj]
                  exact hlivej
                · rw [entryAt_append_left _ _ hj]
                  exact heq2
              · refine ⟨rs2, j, ?_, hj, hkey2, hlivej, heq2⟩
                rw [lookupG_zeroG_of_some i hrsB]
                rw [lookupG_updateG_ne _ _ (Ne.symm hen)]
                rw [lookupG_updateG_ne _ _ (Ne.symm hgn)]
                exact hrs2
        · show ((insertIdx S.indexes k _).map Prod.fst).Nodup
          exact idxNodup_insertIdx _ _ _ hwf.wfIdxNodup

theorem lookupF_remove_item_ne {fs : List (Nat × Bytes)} {n m pos : Nat} (h : n ≠ m) :
    lookupF (remove_item fs n pos) m = lookupF fs m := by
  unfold remove_item
  cases hl : lookupF fs n with
  | none => rfl
  | some c => exact lookupF_updateF_ne fs _ h

theorem get_eval_generic (s : KvStore) (k : Bytes) (e : DataIndex) (pre post : Bytes) (r : Rec)
    (he : lookupIdx s.indexes k = some e)
    (hr : e.n ∈ s.readers)
    (hc : (lookupF s.files e.n).getD [] = pre ++ r.enc ++ post)
    (hpos : e.pos = pre.length)
    (hlen : e.len = encLen r)
    (hb : r.k.length + r.v.length + 17 ≤ 2 ^ 32) :
    s.get k = some (.ok (some r.v)) := by
  have hclen : (pre ++ r.enc ++ post).length =
      pre.length + encLen r + post.length := by
    simp [enc_length]
    omega
  have d12 : (pre ++ r.enc ++ post).drop (pre.length + 12) =
      toLE 4 r.v.length ++ (r.k ++ (r.v ++ post)) := by
    have hsplit : pre ++ r.enc ++ post =
        (pre ++ toLE 8 r.t ++ toLE 4 r.k.length) ++ (toLE 4 r.v.length ++ (r.k ++ (r.v ++ post))) := by
      simp [Rec.enc, recordBytes, List.append_assoc]
    rw [hsplit, List.drop_left']
    simp [toLE_length]
  have rvs : fromLE (((pre ++ r.enc ++ post).drop (pre.length + 12)).take 4) = r.v.length := by
    rw [d12, List.take_left' (toLE_length 4 r.v.length), fromLE_toLE, Nat.mod_eq_of_lt]
    have : (256 : Nat) ^ 4 = 2 ^ 32 := by norm_num
    omega
  have dval : (pre ++ r.enc ++ post).drop (pre.length + 16 + r.k.length) = r.v ++ post := by
    have hsplit : pre ++ r.enc ++ post =
        (pre ++ toLE 8 r.t ++ toLE 4 r.k.length ++ toLE 4 r.v.length ++ r.k) ++ (r.v ++ post) := by
      simp [Rec.enc, recordBytes, List.append_assoc]
    rw [hsplit, List.drop_left']
    simp [toLE_length]
    omega
  have rval : ((pre ++ r.enc ++ post).drop (pre.length + 16 + r.k.length)).take r.v.length
      = r.v := by
    rw [dval, List.take_left' rfl]
  unfold KvStore.get
  rw [he]
  simp only [if_pos hr]
  rw [hc, hpos]
  rw [if_pos (show pre.length + 16 ≤ (pre ++ r.enc ++ post).length by
    rw [hclen]; have := encLen_ge r; omega)]
  rw [rvs]
  have hks : e.len - 16 - r.v.length = r.k.length := by
    rw [hlen]
    simp only [encLen]
    omega
  rw [hks, rval]

theorem wf_get_eval (S : KvStore) (G : List (Nat × List Rec)) (hwf : WF S G) (k : Bytes)
    {e : DataIndex} (he : lookupIdx S.indexes k = some e) :
    ∃ rs i, lookupG G e.n = some rs ∧ i < rs.length ∧ (recAt rs i).k = k ∧
      S.get k = some (.ok (some (recAt rs i).v)) := by
  obtain ⟨rs, i, hrs, hi, hkey, hlive, heq⟩ := hwf.wfEntry k e he
  refine ⟨rs, i, hrs, hi, hkey, ?_⟩
  have hc : (lookupF S.files e.n).getD [] =
      encFile (rs.take i) ++ (recAt rs i).enc ++ encFile (rs.drop (i + 1)) := by
    rw [lookupF_ghost hwf.wfFiles, hrs]
    simp only [Option.map_some', Option.getD_some]
    exact encFile_decomp hi
  have hrd : e.n ∈ S.readers := (hwf.wfReaders e.n).2 (wf_entry_gen_mem hwf he)
  obtain ⟨hb, _⟩ := hwf.wfRecOK e.n rs hrs (recAt rs i) (recAt_mem hi)
  apply get_eval_generic S k e _ _ _ he hrd hc
  · rw [heq]
    rfl
  · rw [heq]
    rfl
  · exact hb

theorem wf_get_total (S : KvStore) (G : List (Nat × List Rec)) (hwf : WF S G) (k : Bytes) :
    S.get k ≠ none := by
  cases he : lookupIdx S.indexes k with
  | none =>
      unfold KvStore.get
      rw [he]
      simp
  | some e =>
      obtain ⟨rs, i, _, _, _, hget⟩ := wf_get_eval S G hwf k he
      rw [hget]
      simp

theorem wf_remove (S : KvStore) (G : List (Nat × List Rec)) (hwf : WF S G) (k : Bytes) :
    ∃ S2 G2 r, S.remove k = some (S2, r) ∧ WF S2 G2 := by
  cases hold : lookupIdx S.indexes k with
  | none =>
      refine ⟨S, G, .error .KeyNotFound, ?_, hwf⟩
      unfold KvStore.remove
      rw [hold]
  | some old =>
      obtain ⟨rs1, i, hrs1, hi, hkey1, hlive1, heq1⟩ := hwf.wfEntry k old hold
      have hro : old.n ∈ S.readers := (hwf.wfReaders old.n).2 (wf_entry_gen_mem hwf hold)
      have hpos1 : old.pos = (encFile (rs1.take i)).length := by
        have := congrArg DataIndex.pos heq1
        simpa [entryAt] using this
      have huniq : ∀ g rs j, lookupG G g = some rs → j < rs.length → (recAt rs j).t ≠ 0 →
          (recAt rs j).k = k → g = old.n ∧ j = i := by
        intro g rs j hg hj hlj hkj
        have hL := hwf.wfLive g rs hg j hj hlj
        rw [hkj, hold] at hL
        have heo : old = entryAt g rs j := Option.some_inj.1 hL
        have hgn : old.n = g := by
          have := congrArg DataIndex.n heo
          simpa [entryAt] using this
        refine ⟨hgn.symm, ?_⟩
        rw [← hgn] at hg
        rw [hrs1] at hg
        have hre : rs1 = rs := Option.some_inj.1 hg
        subst hre
        have hpe : (encFile (rs1.take i)).length = (encFile (rs1.take j)).length := by
          have h1 := congrArg DataIndex.pos heq1
          have h2 := congrArg DataIndex.pos heo
          simp only [entryAt] at h1 h2
          omega
        exact (take_len_inj hi hj hpe).symm
      refine ⟨{ S with
          indexes := eraseIdx S.indexes k,
          uncompacted := S.uncompacted + old.len,
          files := remove_item S.files old.n old.pos }, zeroG G old.n i, .ok (), ?_, ?_⟩
      · unfold KvStore.remove
        rw [hold]
        simp only [if_pos hro]
      · refine ⟨?_, ?_, ?_, ?_, ?_, ?_, ?_, ?_⟩
        · show List.Forall₂ _ (remove_item S.files old.n old.pos) _
          rw [hpos1]
          exact remove_item_ghost hwf.wfFiles hrs1 hi
        · show ((remove_item S.files old.n old.pos).map Prod.fst).Nodup
          rw [keys_remove_item]
          exact hwf.wfNodup
        · intro g
          show g ∈ S.readers ↔ g ∈ (remove_item S.files old.n old.pos).map Prod.fst
          rw [keys_remove_item]
          exact hwf.wfReaders g
        · show S.nth ∈ (remove_item S.files old.n old.pos).map Prod.fst
          rw [keys_remove_item]
          exact hwf.wfNth
        · intro g rs hg r hr
          rw [lookupG_zeroG_of_some i hrs1] at hg
          by_cases hgo : g = old.n
          · subst hgo
            rw [lookupG_updateG_self] at hg
            rw [← Option.some_inj.1 hg] at hr
            rcases List.mem_or_eq_of_mem_set hr with hr | hr
            · exact hwf.wfRecOK old.n rs1 hrs1 r hr
            · rw [hr]
              obtain ⟨hb1, _⟩ := hwf.wfRecOK old.n rs1 hrs1 (recAt rs1 i) (recAt_mem hi)
              exact ⟨hb1, by simp [zeroRec]⟩
          · rw [lookupG_updateG_ne _ _ (fun hh => hgo hh.symm)] at hg
            exact hwf.wfRecOK g rs hg r hr
        · intro g rs hg j hj hlive
          rw [lookupG_zeroG_of_some i hrs1] at hg
          by_cases hgo : g = old.n
          · subst hgo
            rw [lookupG_updateG_self] at hg
            have hreq : rs = rs1.set i (zeroRec (recAt rs1 i)) := (Option.some_inj.1 hg).symm
            subst hreq
            by_cases hji : j = i
            · subst hji
              rw [recAt_set_self _ hi] at hlive
              simp [zeroRec] at hlive
            · rw [recAt_set_ne _ _ (fun hh => hji hh.symm)] at hlive ⊢
              rw [entryAt_set_zero_ne _ _ (fun hh => hji hh.symm)]
              have hjlt : j < rs1.length := by simpa using hj
              have hL := hwf.wfLive old.n rs1 hrs1 j hjlt hlive
              have hkne : (recAt rs1 j).k ≠ k := by
                intro hk
                obtain ⟨_, hji2⟩ := huniq old.n rs1 j hrs1 hjlt hlive hk
                exact hji hji2
              rw [lookupIdx_eraseIdx_ne _ (Ne.symm hkne)]
              exact hL
          · rw [lookupG_updateG_ne _ _ (fun hh => hgo hh.symm)] at hg
            have hL := hwf.wfLive g rs hg j hj hlive
            have hkne : (recAt rs j).k ≠ k := by
              intro hk
              obtain ⟨hgo2, _⟩ := huniq g rs j hg hj hlive hk
              exact hgo hgo2
            rw [lookupIdx_eraseIdx_ne _ (Ne.symm hkne)]
            exact hL
        · intro k2 e he
          by_cases hk2 : k2 = k
          · subst hk2
            rw [lookupIdx_eraseIdx_self _ _ hwf.wfIdxNodup] at he
            exact Option.noConfusion he
          · rw [lookupIdx_eraseIdx_ne _ (fun hh => hk2 hh.symm)] at he
            obtain ⟨rs2, j, hrs2, hj, hkey2, hlivej, heq2⟩ := hwf.wfEntry k2 e he
            have hkne : (recAt rs2 j).k ≠ k := by rw [hkey2]; exact hk2
            by_cases hen : e.n = old.n
            · rw [hen, hrs1] at hrs2
              have hre : rs2 = rs1 := Option.some_inj.1 hrs2.symm
              subst hre
              have hji : j ≠ i := by
                intro hh
                rw [hh] at hkne
                exact hkne hkey1
              refine ⟨rs2.set i (zeroRec (recAt rs2 i)), j, ?_, by simpa using hj, ?_, ?_, ?_⟩
              · rw [lookupG_zeroG_of_some i hrs1, hen]
                exact lookupG_updateG_self _ old.n _
              · rw [recAt_set_ne _ _ (fun hh => hji hh.symm)]
                exact hkey2
              · rw [recAt_set_ne _ _ (fun hh => hji hh.symm)]
                exact hlivej
              · rw [entryAt_set_zero_ne _ _ (fun hh => hji hh.symm)]
                exact heq2
            · refine ⟨rs2, j, ?_, hj, hkey2, hlivej, heq2⟩
              rw [lookupG_zeroG_of_some i hrs1]
              rw [lookupG_updateG_ne _ _ (Ne.symm hen)]
              exact hrs2
        · show ((eraseIdx S.indexes k).map Prod.fst).Nodup
          exact idxNodup_eraseIdx _ _ hwf.wfIdxNodup

theorem set_unfold_none (S : KvStore) {k : Bytes} (v : Bytes) (t : Nat) {c : Bytes}
    (hc : lookupF S.files S.nth = some c) (hold : lookupIdx S.indexes k = none) :
    S.set k v t = { S with
      files := updateF S.files S.nth (c ++ recordBytes t k v),
      indexes := insertIdx S.indexes k
        ⟨S.nth, c.length, (16 + (k.length + v.length) % 2 ^ 32) % 2 ^ 32, t⟩ } := by
  unfold KvStore.set
  rw [hc]
  simp only [Option.getD_some]
  rw [hold]

theorem set_unfold_some (S : KvStore) {k : Bytes} (v : Bytes) (t : Nat) {c : Bytes}
    (hc : lookupF S.files S.nth = some c) {old : DataIndex}
    (hold : lookupIdx S.indexes k = some old) (hro : old.n ∈ S.readers) :
    S.set k v t = { S with
      files := remove_item (updateF S.files S.nth (c ++ recordBytes t k v)) old.n old.pos,
      indexes := insertIdx S.indexes k
        ⟨S.nth, c.length, (16 + (k.length + v.length) % 2 ^ 32) % 2 ^ 32, t⟩,
      uncompacted := S.uncompacted + old.len } := by
  unfold KvStore.set
  rw [hc]
  simp only [Option.getD_some]
  rw [hold]
  simp only [if_pos hro]

theorem set_uncompacted_superseded (S : KvStore) {k : Bytes} {old : DataIndex}
    (hold : lookupIdx S.indexes k = some old) (v : Bytes) (t : Nat) :
    (S.set k v t).uncompacted = S.uncompacted + old.len ∧
    (S.set k v t).nth = S.nth ∧ (S.set k v t).readers = S.readers := by
  unfold KvStore.set
  rw [hold]
  exact ⟨rfl, rfl, rfl⟩

theorem set_uncompacted_fresh (S : KvStore) {k : Bytes}
    (hold : lookupIdx S.indexes k = none) (v : Bytes) (t : Nat) :
    (S.set k v t).uncompacted = S.uncompacted ∧
    (S.set k v t).nth = S.nth ∧ (S.set k v t).readers = S.readers := by
  unfold KvStore.set
  rw [hold]
  exact ⟨rfl, rfl, rfl⟩

theorem set_get_core (S : KvStore) (G : List (Nat × List Rec)) (hwf : WF S G)
    (k v : Bytes) (t : Nat) (hkv : k.length + v.length + 17 ≤ 2 ^ 32) :
    (S.set k v t).get k = some (.ok (some v)) := by
  obtain ⟨rs0, hrs0⟩ : ∃ rs0, lookupG G S.nth = some rs0 := by
    have hnthG : (lookupG G S.nth).isSome := by
      rw [← mem_keys_lookupG, ← keys_ghost hwf.wfFiles]
      exact hwf.wfNth
    cases hx : lookupG G S.nth with
    | none => rw [hx] at hnthG; simp at hnthG
    | some rs0 => exact ⟨rs0, rfl⟩
  have hc : lookupF S.files S.nth = some (encFile rs0) := by
    rw [lookupF_ghost hwf.wfFiles, hrs0]
    rfl
  have hrdnth : S.nth ∈ S.readers := (hwf.wfReaders S.nth).2 hwf.wfNth
  have hrb : recordBytes t k v = (⟨t, k, v⟩ : Rec).enc := rfl
  cases hold : lookupIdx S.indexes k with
  | none =>
      rw [set_unfold_none S v t hc hold]
      apply get_eval_generic _ k
        ⟨S.nth, (encFile rs0).length, (16 + (k.length + v.length) % 2 ^ 32) % 2 ^ 32, t⟩
        (encFile rs0) [] ⟨t, k, v⟩
      · exact lookupIdx_insertIdx_self _ _ _
      · exact hrdnth
      · show (lookupF (updateF S.files S.nth (encFile rs0 ++ recordBytes t k v)) S.nth).getD []
          = encFile rs0 ++ (⟨t, k, v⟩ : Rec).enc ++ []
        rw [lookupF_updateF_self]
        simp [hrb]
      · rfl
      · show (16 + (k.length + v.length) % 2 ^ 32) % 2 ^ 32 = encLen ⟨t, k, v⟩
        rw [set_len_eq hkv]
        rfl
      · exact hkv
  | some old =>
      obtain ⟨rs1, i, hrs1, hi, hkey1, hlive1, heq1⟩ := hwf.wfEntry k old hold
      have hro : old.n ∈ S.readers := (hwf.wfReaders old.n).2 (wf_entry_gen_mem hwf hold)
      have hpos1 : old.pos = (encFile (rs1.take i)).length := by
        have := congrArg DataIndex.pos heq1
        simpa [entryAt] using this
      have hlen1 : old.len = encLen (recAt rs1 i) := by
        have := congrArg DataIndex.len heq1
        simpa [entryAt] using this
      rw [set_unfold_some S v t hc hold hro]
      by_cases hon : old.n = S.nth
      · have hr10 : rs1 = rs0 := by
          rw [hon, hrs0] at hrs1
          exact Option.some_inj.1 hrs1.symm
        subst hr10
        have hpb : old.pos + 8 ≤ (encFile rs1).length := by
          have h1 := entry_pos_bound hi
          have h2 := encLen_ge (recAt rs1 i)
          omega
        have hcontent : lookupF (remove_item
            (updateF S.files S.nth (encFile rs1 ++ recordBytes t k v)) old.n old.pos) S.nth =
            some (overwriteAt (encFile rs1) old.pos (toLE 8 0) ++ recordBytes t k v) := by
          unfold remove_item
          rw [hon, lookupF_updateF_self]
          rw [lookupF_updateF_self]
          congr 1
          rw [overwriteAt_append_left _ (by rw [toLE_length]; exact hpb)]
        apply get_eval_generic _ k
          ⟨S.nth, (encFile rs1).length, (16 + (k.length + v.length) % 2 ^ 32) % 2 ^ 32, t⟩
          (overwriteAt (encFile rs1) old.pos (toLE 8 0)) [] ⟨t, k, v⟩
        · exact lookupIdx_insertIdx_self _ _ _
        · exact hrdnth
        · show (lookupF (remove_item
              (updateF S.files S.nth (encFile rs1 ++ recordBytes t k v)) old.n old.pos)
              S.nth).getD [] = _
          rw [hcontent]
          simp [hrb]
        · show (encFile rs1).length = (overwriteAt (encFile rs1) old.pos (toLE 8 0)).length
          rw [length_overwriteAt_of_le (by rw [toLE_length]; exact hpb)]
        · show (16 + (k.length + v.length) % 2 ^ 32) % 2 ^ 32 = encLen ⟨t, k, v⟩
          rw [set_len_eq hkv]
          rfl
        · exact hkv
      · have hcontent : lookupF (remove_item
            (updateF S.files S.nth (encFile rs0 ++ recordBytes t k v)) old.n old.pos) S.nth =
            some (encFile rs0 ++ recordBytes t k v) := by
          rw [lookupF_remove_item_ne hon]
          exact lookupF_updateF_self _ _ _
        apply get_eval_generic _ k
          ⟨S.nth, (encFile rs0).length, (16 + (k.length + v.length) % 2 ^ 32) % 2 ^ 32, t⟩
          (encFile rs0) [] ⟨t, k, v⟩
        · exact lookupIdx_insertIdx_self _ _ _
        · exact hrdnth
        · show (lookupF (remove_item
              (updateF S.files S.nth (encFile rs0 ++ recordBytes t k v)) old.n old.pos)
              S.nth).getD [] = _
          rw [hcontent]
          simp [hrb]
        · rfl
        · show (16 + (k.length + v.length) % 2 ^ 32) % 2 ^ 32 = encLen ⟨t, k, v⟩
          rw [set_len_eq hkv]
          rfl
        · exact hkv

theorem wf_store0 : WF store0 ghost0 := by
  refine ⟨?_, ?_, ?_, ?_, ?_, ?_, ?_, ?_⟩
  · exact List.Forall₂.cons ⟨rfl, rfl⟩ List.Forall₂.nil
  · simp [store0]
  · intro g
    exact Iff.rfl
  · simp [store0]
  · intro g rs h r hr
    simp only [ghost0, lookupG] at h
    by_cases hg : (1 : Nat) = g
    · rw [if_pos hg] at h
      rw [← Option.some_inj.1 h] at hr
      simp at hr
    · rw [if_neg hg] at h
      exact Option.noConfusion h
  · intro g rs h i hi hlive
    simp only [ghost0, lookupG] at h
    by_cases hg : (1 : Nat) = g
    · rw [if_pos hg] at h
      rw [← Option.some_inj.1 h] at hi
      simp at hi
    · rw [if_neg hg] at h
      exact Option.noConfusion h
  · intro k e he
    simp [lookupIdx, store0] at he
  · simp [store0]

theorem openA_nil : openA [] = some store0 := by
  rfl

theorem exec_wf : ∀ (ops : List Op) (S : KvStore) (G : List (Nat × List Rec)), WF S G →
    (∀ op ∈ ops, OpOK op) → ∃ S2 G2, exec S ops = some S2 ∧ WF S2 G2 := by
  intro ops
  induction ops with
  | nil =>
      intro S G hwf _
      exact ⟨S, G, rfl, hwf⟩
  | cons op rest ih =>
      intro S G hwf hok
      have hop := hok op (List.mem_cons_self _ _)
      have hrest : ∀ op2 ∈ rest, OpOK op2 := fun op2 h2 => hok op2 (List.mem_cons_of_mem _ h2)
      cases op with
      | setOp k v t =>
          obtain ⟨ht0, ht, hkv⟩ := hop
          obtain ⟨G2, hwf2⟩ := wf_set S G hwf k v t ht0 ht hkv
          obtain ⟨S3, G3, hexec, hwf3⟩ := ih (S.set k v t) G2 hwf2 hrest
          exact ⟨S3, G3, hexec, hwf3⟩
      | removeOp k =>
          obtain ⟨S2, G2, r, hrem, hwf2⟩ := wf_remove S G hwf k
          obtain ⟨S3, G3, hexec, hwf3⟩ := ih S2 G2 hwf2 hrest
          refine ⟨S3, G3, ?_, hwf3⟩
          show (applyOp S (.removeOp k)).bind (fun s2 => exec s2 rest) = some S3
          simp only [applyOp]
          rw [hrem]
          simp only [Option.map_some', Option.some_bind]
          exact hexec
      | getOp k =>
          have hg := wf_get_total S G hwf k
          obtain ⟨res, hres⟩ : ∃ res, S.get k = some res := by
            cases h : S.get k with
            | none => exact absurd h hg
            | some res => exact ⟨res, rfl⟩
          obtain ⟨S3, G3, hexec, hwf3⟩ := ih S G hwf hrest
          refine ⟨S3, G3, ?_, hwf3⟩
          show (applyOp S (.getOp k)).bind (fun s2 => exec s2 rest) = some S3
          simp only [applyOp]
          rw [hres]
          simp only [Option.map_some', Option.some_bind]
          exact hexec

theorem filesGrow_refl (fs : List (Nat × Bytes)) : FilesGrow fs fs :=
  fun _ c h => ⟨c, h, Nat.le_refl _⟩

theorem filesGrow_trans {a b c : List (Nat × Bytes)} (h1 : FilesGrow a b) (h2 : FilesGrow b c) :
    FilesGrow a c := by
  intro g x hx
  obtain ⟨y, hy, hxy⟩ := h1 g x hx
  obtain ⟨z, hz, hyz⟩ := h2 g y hy
  exact ⟨z, hz, Nat.le_trans hxy hyz⟩

theorem filesGrow_remove_item (fs : List (Nat × Bytes)) (n pos : Nat) :
    FilesGrow fs (remove_item fs n pos) := by
  intro g x hx
  unfold remove_item
  cases hl : lookupF fs n with
  | none => exact ⟨x, hx, Nat.le_refl _⟩
  | some c =>
      by_cases hg : n = g
      · subst hg
        rw [hl] at hx
        rw [lookupF_updateF_self]
        refine ⟨_, rfl, ?_⟩
        rw [← Option.some_inj.1 hx]
        exact length_le_length_overwriteAt c pos (toLE 8 0)
      · rw [lookupF_updateF_ne fs _ hg]
        exact ⟨x, hx, Nat.le_refl _⟩

theorem filesGrow_append_self (fs : List (Nat × Bytes)) (n : Nat) (b : Bytes) :
    FilesGrow fs (updateF fs n (((lookupF fs n).getD []) ++ b)) := by
  intro g x hx
  by_cases hg : n = g
  · subst hg
    rw [lookupF_updateF_self]
    refine ⟨_, rfl, ?_⟩
    rw [hx]
    simp

  · rw [lookupF_updateF_ne fs _ hg]
    exact ⟨x, hx, Nat.le_refl _⟩

theorem lookupF_append_some {fs : List (Nat × Bytes)} {g : Nat} {c : Bytes}
    (more : List (Nat × Bytes)) (h : lookupF fs g = some c) :
    lookupF (fs ++ more) g = some c := by
  induction fs with
  | nil => exact Option.noConfusion h
  | cons hd tl ih =>
      obtain ⟨g0, c0⟩ := hd
      by_cases hg : g0 = g
      · simp only [lookupF, if_pos hg] at h
        simp only [List.cons_append, lookupF, if_pos hg]
        exact h
      · simp only [lookupF, if_neg hg] at h
        simp only [List.cons_append, lookupF, if_neg hg]
        exact ih h

theorem lookupF_createF_of_some {fs : List (Nat × Bytes)} {g n : Nat} {c : Bytes}
    (h : lookupF fs g = some c) : lookupF (createF fs n) g = some c := by
  unfold createF
  cases hn : lookupF fs n with
  | some _ => exact h
  | none => exact lookupF_append_some _ h

theorem mem_insertIdx {idx : List (Bytes × DataIndex)} {k : Bytes} {d : DataIndex}
    {p : Bytes × DataIndex} (h : p ∈ insertIdx idx k d) : p = (k, d) ∨ p ∈ idx := by
  induction idx with
  | nil =>
      simp only [insertIdx, List.mem_singleton] at h
      exact Or.inl h
  | cons hd tl ih =>
      obtain ⟨k0, d0⟩ := hd
      by_cases hk : k0 = k
      · simp only [insertIdx, if_pos hk] at h
        rcases List.mem_cons.1 h with rfl | h
        · exact Or.inl rfl
        · exact Or.inr (List.mem_cons_of_mem _ h)
      · simp only [insertIdx, if_neg hk] at h
        rcases List.mem_cons.1 h with rfl | h
        · exact Or.inr (List.mem_cons_self _ _)
        · rcases ih h with h | h
          · exact Or.inl h
          · exact Or.inr (List.mem_cons_of_mem _ h)

theorem mem_eraseIdx {idx : List (Bytes × DataIndex)} {k : Bytes} {p : Bytes × DataIndex}
    (h : p ∈ eraseIdx idx k) : p ∈ idx := by
  induction idx with
  | nil =>
      simp only [eraseIdx] at h
      exact h
  | cons hd tl ih =>
      obtain ⟨k0, d0⟩ := hd
      by_cases hk : k0 = k
      · simp only [eraseIdx, if_pos hk] at h
        exact List.mem_cons_of_mem _ h
      · simp only [eraseIdx, if_neg hk] at h
        rcases List.mem_cons.1 h with rfl | h
        · exact List.mem_cons_self _ _
        · exact List.mem_cons_of_mem _ (ih h)

theorem lookupIdx_mem {idx : List (Bytes × DataIndex)} {k : Bytes} {e : DataIndex}
    (h : lookupIdx idx k = some e) : (k, e) ∈ idx := by
  induction idx with
  | nil => exact Option.noConfusion h
  | cons hd tl ih =>
      obtain ⟨k0, d0⟩ := hd
      by_cases hk : k0 = k
      · simp only [lookupIdx, if_pos hk] at h
        subst hk
        rw [← Option.some_inj.1 h]
        exact List.mem_cons_self _ _
      · simp only [lookupIdx, if_neg hk] at h
        exact List.mem_cons_of_mem _ (ih h)

theorem read_item_inv {n : Nat} {c : Bytes} {pos : Nat} {k : Bytes} {d : DataIndex} {pos2 : Nat}
    (h : read_item n c pos = some ((k, d), pos2)) :
    d.n = n ∧ d.pos = pos ∧ pos + 16 ≤ c.length := by
  rw [read_item] at h
  by_cases h16 : pos + 16 ≤ c.length
  · rw [if_pos h16] at h
    simp only [] at h
    by_cases hks : pos + 16 + fromLE ((c.drop (pos + 8)).take 4) ≤ c.length
    · rw [if_pos hks] at h
      simp only [Option.some.injEq, Prod.mk.injEq] at h
      obtain ⟨⟨-, hd⟩, -⟩ := h
      exact ⟨by rw [← hd], by rw [← hd], h16⟩
    · rw [if_neg hks] at h
      exact Option.noConfusion h
  · rw [if_neg h16] at h
    exact Option.noConfusion h

theorem replayFuel_filesGrow (gen : Nat) (c : Bytes) : ∀ (fuel pos : Nat) (st st2 : ReplaySt),
    replayFuel gen c fuel pos st = some st2 →
    FilesGrow st.files st2.files ∧ st2.readers = st.readers := by
  intro fuel
  induction fuel with
  | zero => intro pos st st2 h; exact Option.noConfusion h
  | succ fuel ih =>
      intro pos st st2 h
      rw [replayFuel] at h
      cases hr : read_item gen c pos with
      | none =>
          simp only [hr] at h
          have heq := Option.some_inj.1 h
          subst heq
          exact ⟨filesGrow_refl _, rfl⟩
      | some kd =>
          obtain ⟨⟨k, d⟩, pos2⟩ := kd
          simp only [hr] at h
          by_cases ht : d.timestamp = 0
          · simp only [if_pos ht] at h
            exact ih pos2 { st with unc := st.unc + d.len } st2 h
          · simp only [if_neg ht] at h
            cases hv : lookupIdx st.idx k with
            | none =>
                simp only [hv] at h
                exact ih pos2 { st with idx := insertIdx st.idx k d } st2 h
            | some v =>
                simp only [hv] at h
                by_cases hvr : v.n ∈ st.readers
                · simp only [if_pos hvr] at h
                  obtain ⟨h1, h2⟩ := ih pos2 _ st2 h
                  exact ⟨filesGrow_trans (filesGrow_remove_item _ _ _) h1, h2⟩
                · simp only [if_neg hvr] at h
                  exact Option.noConfusion h

theorem replayFuel_inv (gen : Nat) (c : Bytes) : ∀ (fuel pos : Nat) (st st2 : ReplaySt),
    replayFuel gen c fuel pos st = some st2 →
    (∀ p ∈ st.idx, (p.2.n ∈ st.readers ∨ p.2.n = gen) ∧
      ∃ c0, lookupF st.files p.2.n = some c0 ∧ p.2.pos + 16 ≤ c0.length) →
    (∃ cg, lookupF st.files gen = some cg ∧ c.length ≤ cg.length) →
    ∀ p ∈ st2.idx, (p.2.n ∈ st.readers ∨ p.2.n = gen) ∧
      ∃ c0, lookupF st2.files p.2.n = some c0 ∧ p.2.pos + 16 ≤ c0.length := by
  intro fuel
  induction fuel with
  | zero => intro pos st st2 h; exact Option.noConfusion h
  | succ fuel ih =>
      intro pos st st2 h hidx hg
      rw [replayFuel] at h
      cases hr : read_item gen c pos with
      | none =>
          simp only [hr] at h
          have heq := Option.some_inj.1 h
          subst heq
          exact hidx
      | some kd =>
          obtain ⟨⟨k, d⟩, pos2⟩ := kd
          simp only [hr] at h
          obtain ⟨hdn, hdpos, hdb⟩ := read_item_inv hr
          obtain ⟨cg, hcg, hcglen⟩ := hg
          by_cases ht : d.timestamp = 0
          · simp only [if_pos ht] at h
            exact ih pos2 { st with unc := st.unc + d.len } st2 h hidx ⟨cg, hcg, hcglen⟩
          · simp only [if_neg ht] at h
            cases hv : lookupIdx st.idx k with
            | none =>
                simp only [hv] at h
                refine ih pos2 { st with idx := insertIdx st.idx k d } st2 h ?_ ⟨cg, hcg, hcglen⟩
                intro p hp
                rcases mem_insertIdx hp with rfl | hp
                · refine ⟨Or.inr hdn, cg, ?_, ?_⟩
                  · show lookupF st.files d.n = some cg
                    rw [hdn]
                    exact hcg
                  · show d.pos + 16 ≤ cg.length
                    omega
                · exact hidx p hp
            | some v =>
                simp only [hv] at h
                by_cases hvr : v.n ∈ st.readers
                · simp only [if_pos hvr] at h
                  refine ih pos2
                    { st with files := remove_item st.files v.n v.pos,
                              idx := insertIdx st.idx k d, unc := st.unc + v.len } st2 h ?_ ?_
                  · intro p hp
                    rcases mem_insertIdx hp with rfl | hp
                    · obtain ⟨cg2, hcg2, hlen2⟩ :=
                        filesGrow_remove_item st.files v.n v.pos gen cg hcg
                      refine ⟨Or.inr hdn, cg2, ?_, ?_⟩
                      · show lookupF (remove_item st.files v.n v.pos) d.n = some cg2
                        rw [hdn]
                        exact hcg2
                      · show d.pos + 16 ≤ cg2.length
                        omega
                    · obtain ⟨hrd, c0, hc0, hb0⟩ := hidx p hp
                      obtain ⟨c1, hc1, hl1⟩ :=
                        filesGrow_remove_item st.files v.n v.pos p.2.n c0 hc0
                      exact ⟨hrd, c1, hc1, by omega⟩
                  · obtain ⟨c1, hc1, hl1⟩ := filesGrow_remove_item st.files v.n v.pos gen cg hcg
                    exact ⟨c1, hc1, by omega⟩
                · simp only [if_neg hvr] at h
                  exact Option.noConfusion h

theorem openLoop_inv : ∀ (gens : List Nat) (fs : List (Nat × Bytes)) (rd : List Nat)
    (idx : List (Bytes × DataIndex)) (unc : Nat) (vec : List Nat)
    (fs2 : List (Nat × Bytes)) (rd2 : List Nat) (idx2 : List (Bytes × DataIndex))
    (unc2 : Nat) (vec2 : List Nat),
    openLoop gens fs rd idx unc vec = some (fs2, rd2, idx2, unc2, vec2) →
    (∀ p ∈ idx, p.2.n ∈ rd ∧ ∃ c0, lookupF fs p.2.n = some c0 ∧ p.2.pos + 16 ≤ c0.length) →
    (∀ x ∈ rd, x ∈ rd2) ∧
    (∀ p ∈ idx2, p.2.n ∈ rd2 ∧ ∃ c0, lookupF fs2 p.2.n = some c0 ∧ p.2.pos + 16 ≤ c0.length) := by
  intro gens
  induction gens with
  | nil =>
      intro fs rd idx unc vec fs2 rd2 idx2 unc2 vec2 h hidx
      simp only [openLoop, Option.some.injEq, Prod.mk.injEq] at h
      obtain ⟨rfl, rfl, rfl, rfl, rfl⟩ := h
      exact ⟨fun x hx => hx, hidx⟩
  | cons num rest ih =>
      intro fs rd idx unc vec fs2 rd2 idx2 unc2 vec2 h hidx
      rw [openLoop] at h
      cases hl : lookupF fs num with
      | none =>
          simp only [hl] at h
          exact ih fs rd idx unc vec _ _ _ _ _ h hidx
      | some c =>
          simp only [hl] at h
          by_cases hcz : c.length = 0
          · simp only [if_pos hcz] at h
            refine ih _ rd idx unc vec _ _ _ _ _ h ?_
            intro p hp
            obtain ⟨hrd, c0, hc0, hb0⟩ := hidx p hp
            have hne : num ≠ p.2.n := by
              intro hh
              rw [← hh] at hc0
              rw [hl] at hc0
              have hcc : c = c0 := Option.some_inj.1 hc0
              rw [← hcc] at hb0
              omega
            refine ⟨hrd, c0, ?_, hb0⟩
            rw [lookupF_eraseF_ne fs hne]
            exact hc0
          · simp only [if_neg hcz] at h
            cases hrp : replayFuel num c (c.length + 1) 0 ⟨fs, rd, idx, unc⟩ with
            | none =>
                simp only [hrp] at h
                exact Option.noConfusion h
            | some st =>
                simp only [hrp] at h
                have hrdr := (replayFuel_filesGrow num c (c.length + 1) 0 ⟨fs, rd, idx, unc⟩ st hrp).2
                have hinv := replayFuel_inv num c (c.length + 1) 0 ⟨fs, rd, idx, unc⟩ st hrp
                  (by
                    intro p hp
                    obtain ⟨hrd, c0, hc0, hb0⟩ := hidx p hp
                    exact ⟨Or.inl hrd, c0, hc0, hb0⟩)
                  ⟨c, hl, Nat.le_refl _⟩
                have hside : ∀ p ∈ st.idx, p.2.n ∈ readersInsert st.readers num ∧
                    ∃ c0, lookupF st.files p.2.n = some c0 ∧ p.2.pos + 16 ≤ c0.length := by
                  intro p hp
                  obtain ⟨hor, c0, hc0, hb0⟩ := hinv p hp
                  refine ⟨?_, c0, hc0, hb0⟩
                  rcases hor with hor | hor
                  · exact mem_readersInsert.2 (Or.inl (by rw [hrdr]; exact hor))
                  · rw [hor]
                    exact mem_readersInsert.2 (Or.inr rfl)
                obtain ⟨hmono, hpres⟩ :=
                  ih st.files (readersInsert st.readers num) st.idx st.unc (vec ++ [num])
                    _ _ _ _ _ h hside
                refine ⟨?_, hpres⟩
                intro x hx
                exact hmono x (mem_readersInsert.2 (Or.inl (by rw [hrdr]; exact hx)))

theorem openLoop_nonempty_mem (g : Nat) : ∀ (gens : List Nat) (fs : List (Nat × Bytes))
    (rd : List Nat) (idx : List (Bytes × DataIndex)) (unc : Nat) (vec : List Nat)
    (fs2 : List (Nat × Bytes)) (rd2 : List Nat) (idx2 : List (Bytes × DataIndex))
    (unc2 : Nat) (vec2 : List Nat),
    openLoop gens fs rd idx unc vec = some (fs2, rd2, idx2, unc2, vec2) →
    g ∈ gens ∨ g ∈ vec →
    (∃ c, lookupF fs g = some c ∧ c.length ≠ 0) →
    g ∈ vec2 := by
  intro gens
  induction gens with
  | nil =>
      intro fs rd idx unc vec fs2 rd2 idx2 unc2 vec2 h hg hc
      simp only [openLoop, Option.some.injEq, Prod.mk.injEq] at h
      obtain ⟨-, -, -, -, rfl⟩ := h
      rcases hg with hg | hg
      · simp at hg
      · exact hg
  | cons num rest ih =>
      intro fs rd idx unc vec fs2 rd2 idx2 unc2 vec2 h hg hc
      obtain ⟨c0, hc0, hcne⟩ := hc
      rw [openLoop] at h
      cases hl : lookupF fs num with
      | none =>
          simp only [hl] at h
          have hgne : g ≠ num := by
            intro hh
            rw [hh, hl] at hc0
            exact Option.noConfusion hc0
          refine ih fs rd idx unc vec _ _ _ _ _ h ?_ ⟨c0, hc0, hcne⟩
          rcases hg with hg | hg
          · rcases List.mem_cons.1 hg with hh | hh
            · exact absurd hh hgne
            · exact Or.inl hh
          · exact Or.inr hg
      | some c =>
          simp only [hl] at h
          by_cases hcz : c.length = 0
          · simp only [if_pos hcz] at h
            have hgne : num ≠ g := by
              intro hh
              rw [hh, hc0] at hl
              have hcc : c0 = c := Option.some_inj.1 hl
              rw [hcc] at hcne
              omega
            refine ih _ rd idx unc vec _ _ _ _ _ h ?_ ⟨c0, ?_, hcne⟩
            · rcases hg with hg | hg
              · rcases List.mem_cons.1 hg with hh | hh
                · exact absurd hh.symm hgne
                · exact Or.inl hh
              · exact Or.inr hg
            · rw [lookupF_eraseF_ne fs hgne]
              exact hc0
          · simp only [if_neg hcz] at h
            cases hrp : replayFuel num c (c.length + 1) 0 ⟨fs, rd, idx, unc⟩ with
            | none =>
                simp only [hrp] at h
                exact Option.noConfusion h
            | some st =>
                simp only [hrp] at h
                have hFG := (replayFuel_filesGrow num c (c.length + 1) 0 ⟨fs, rd, idx, unc⟩ st hrp).1
                obtain ⟨c1, hc1, hl1⟩ := hFG g c0 hc0
                refine ih st.files (readersInsert st.readers num) st.idx st.unc (vec ++ [num])
                  _ _ _ _ _ h ?_ ⟨c1, hc1, by omega⟩
                by_cases hgn : g = num
                · exact Or.inr (List.mem_append.2 (Or.inr (by simp [hgn])))
                · rcases hg with hg | hg
                  · rcases List.mem_cons.1 hg with hh | hh
                    · exact absurd hh hgn
                    · exact Or.inl hh
                  · exact Or.inr (List.mem_append.2 (Or.inl hg))

theorem openCore_inv (entries : List Nat) (files0 : List (Nat × Bytes)) (S : KvStore)
    (h : openCore entries files0 = some S) : Inv S := by
  unfold openCore at h
  cases hrun : openLoop (List.insertionSort (fun a b => a ≤ b) entries) files0 [] [] 0 [] with
  | none =>
      rw [hrun] at h
      exact Option.noConfusion h
  | some out =>
      obtain ⟨fs2, rd2, idx2, unc2, vec2⟩ := out
      simp only [hrun] at h
      obtain ⟨hmono, hpres⟩ := openLoop_inv _ files0 [] [] 0 [] fs2 rd2 idx2 unc2 vec2 hrun
        (by intro p hp; simp at hp)
      have hS := (Option.some_inj.1 h).symm
      subst hS
      refine ⟨?_, ?_⟩
      · intro p hp
        obtain ⟨hrd, c0, hc0, hb0⟩ := hpres p hp
        exact ⟨mem_readersInsert.2 (Or.inl hrd), c0, lookupF_createF_of_some hc0, hb0⟩
      · exact mem_readersInsert.2 (Or.inr rfl)

theorem inv_set (S : KvStore) (hinv : Inv S) (k v : Bytes) (t : Nat) : Inv (S.set k v t) := by
  have hgrow1 : FilesGrow S.files
      (updateF S.files S.nth (((lookupF S.files S.nth).getD []) ++ recordBytes t k v)) :=
    filesGrow_append_self S.files S.nth (recordBytes t k v)
  have hnew : lookupF
      (updateF S.files S.nth (((lookupF S.files S.nth).getD []) ++ recordBytes t k v)) S.nth
      = some (((lookupF S.files S.nth).getD []) ++ recordBytes t k v) :=
    lookupF_updateF_self _ _ _
  have hrb16 : 16 ≤ (recordBytes t k v).length := by
    simp only [recordBytes, List.length_append, toLE_length]
    omega
  unfold KvStore.set
  cases hold : lookupIdx S.indexes k with
  | none =>
      refine ⟨?_, hinv.nthR⟩
      intro p hp
      rcases mem_insertIdx hp with rfl | hp
      · refine ⟨hinv.nthR, _, hnew, ?_⟩
        simp only [List.length_append]
        omega
      · obtain ⟨hrd, c0, hc0, hb0⟩ := hinv.ent p hp
        obtain ⟨c1, hc1, hl1⟩ := hgrow1 p.2.n c0 hc0
        exact ⟨hrd, c1, hc1, by omega⟩
  | some old =>
      have hgrow2 : FilesGrow S.files
          (if old.n ∈ S.readers then
            remove_item (updateF S.files S.nth
              (((lookupF S.files S.nth).getD []) ++ recordBytes t k v)) old.n old.pos
          else updateF S.files S.nth
            (((lookupF S.files S.nth).getD []) ++ recordBytes t k v)) := by
        by_cases hro : old.n ∈ S.readers
        · rw [if_pos hro]
          exact filesGrow_trans hgrow1 (filesGrow_remove_item _ _ _)
        · rw [if_neg hro]
          exact hgrow1
      have hnew2 : ∃ c2, lookupF
          (if old.n ∈ S.readers then
            remove_item (updateF S.files S.nth
              (((lookupF S.files S.nth).getD []) ++ recordBytes t k v)) old.n old.pos
          else updateF S.files S.nth
            (((lookupF S.files S.nth).getD []) ++ recordBytes t k v)) S.nth = some c2 ∧
          (((lookupF S.files S.nth).getD []) ++ recordBytes t k v).length ≤ c2.length := by
        by_cases hro : old.n ∈ S.readers
        · rw [if_pos hro]
          exact filesGrow_remove_item _ _ _ S.nth _ hnew
        · rw [if_neg hro]
          exact ⟨_, hnew, Nat.le_refl _⟩
      refine ⟨?_, hinv.nthR⟩
      intro p hp
      rcases mem_insertIdx hp with rfl | hp
      · obtain ⟨c2, hc2, hl2⟩ := hnew2
        refine ⟨hinv.nthR, c2, hc2, ?_⟩
        simp only [List.length_append] at hl2
        show ((lookupF S.files S.nth).getD []).length + 16 ≤ c2.length
        omega
      · obtain ⟨hrd, c0, hc0, hb0⟩ := hinv.ent p hp
        obtain ⟨c1, hc1, hl1⟩ := hgrow2 p.2.n c0 hc0
        exact ⟨hrd, c1, hc1, by omega⟩

theorem inv_remove (S : KvStore) (hinv : Inv S) (k : Bytes) (S2 : KvStore)
    (r : Except KvsError Unit) (h : S.remove k = some (S2, r)) : Inv S2 := by
  unfold KvStore.remove at h
  cases hold : lookupIdx S.indexes k with
  | none =>
      simp only [hold, Option.some.injEq, Prod.mk.injEq] at h
      obtain ⟨rfl, -⟩ := h
      exact hinv
  | some v =>
      simp only [hold] at h
      by_cases hvr : v.n ∈ S.readers
      · simp only [if_pos hvr, Option.some.injEq, Prod.mk.injEq] at h
        obtain ⟨rfl, -⟩ := h
        refine ⟨?_, hinv.nthR⟩
        intro p hp
        have hp2 := mem_eraseIdx hp
        obtain ⟨hrd, c0, hc0, hb0⟩ := hinv.ent p hp2
        obtain ⟨c1, hc1, hl1⟩ := filesGrow_remove_item S.files v.n v.pos p.2.n c0 hc0
        exact ⟨hrd, c1, hc1, by omega⟩
      · simp only [if_neg hvr] at h
        exact Option.noConfusion h

theorem inv_exec : ∀ (ops : List Op) (S : KvStore), Inv S →
    ∀ S2, exec S ops = some S2 → Inv S2 := by
  intro ops
  induction ops with
  | nil =>
      intro S hinv S2 h
      rw [← Option.some_inj.1 h]
      exact hinv
  | cons op rest ih =>
      intro S hinv S2 h
      cases hap : applyOp S op with
      | none =>
          rw [show exec S (op :: rest) = (applyOp S op).bind fun s2 => exec s2 rest from rfl,
            hap] at h
          exact Option.noConfusion h
      | some S1 =>
          have h2 : exec S1 rest = some S2 := by
            rw [show exec S (op :: rest) = (applyOp S op).bind fun s2 => exec s2 rest from rfl,
              hap] at h
            exact h
          refine ih S1 ?_ S2 h2
          cases op with
          | setOp k v t =>
              simp only [applyOp] at hap
              rw [← Option.some_inj.1 hap]
              exact inv_set S hinv k v t
          | removeOp k =>
              simp only [applyOp] at hap
              cases hrm : S.remove k with
              | none =>
                  rw [hrm] at hap
                  exact Option.noConfusion hap
              | some pr =>
                  obtain ⟨S1a, r⟩ := pr
                  rw [hrm] at hap
                  simp only [Option.map_some'] at hap
                  rw [← Option.some_inj.1 hap]
                  exact inv_remove S hinv k S1a r hrm
          | getOp k =>
              simp only [applyOp] at hap
              cases hg : S.get k with
              | none =>
                  rw [hg] at hap
                  exact Option.noConfusion hap
              | some res =>
                  rw [hg] at hap
                  simp only [Option.map_some'] at hap
                  rw [← Option.some_inj.1 hap]
                  exact hinv

theorem stripLogRev_digits {l : List Char} (hd : ∀ ch ∈ l, ch.isDigit) :
    stripLogRev l = l := by
  unfold stripLogRev
  split
  · have hg := hd 'g' (List.mem_cons_self _ _)
    exact absurd hg (by decide)
  · rfl

theorem parseU64_eq_digits {l : List Char} (hne : l ≠ [])
    (hd : ∀ ch ∈ l, ch.isDigit) :
    parseU64 l = (parseDigits l 0).bind fun v => if v < 2 ^ 64 then some v else none := by
  unfold parseU64
  split
  · exact absurd rfl hne
  · have hp := hd '+' (List.mem_cons_self _ _)
    exact absurd hp (by decide)
  · rfl

theorem isCanonNat_digits {l : List Char} (h : isCanonNat l = true) :
    l ≠ [] ∧ ∀ ch ∈ l, ch.isDigit := by
  unfold isCanonNat at h
  split at h
  · exact absurd h (by decide)
  · refine ⟨by simp, ?_⟩
    intro ch hch
    simp only [List.mem_singleton] at hch
    subst hch
    decide
  · simp only [Bool.and_eq_true, List.all_eq_true, decide_eq_true_eq] at h
    exact ⟨by simp, h.2⟩

theorem exactLog_some_parseGen {s : String} {n : Nat} (h : exactLog s = some n) :
    parseGen s = some n := by
  unfold exactLog at h
  split at h
  · rename_i restRev heq
    simp only [] at h
    by_cases hcanon : isCanonNat restRev.reverse = true
    · rw [if_pos hcanon] at h
      obtain ⟨hne, hdig⟩ := isCanonNat_digits hcanon
      unfold parseGen
      rw [heq]
      rw [show stripLogRev ('g' :: 'o' :: 'l' :: '.' :: restRev) = stripLogRev restRev from rfl]
      have hdigrev : ∀ ch ∈ restRev, ch.isDigit := by
        intro ch hch
        exact hdig ch (List.mem_reverse.2 hch)
      rw [stripLogRev_digits hdigrev]
      rw [parseU64_eq_digits (by simpa using hne) hdig]
      exact h
    · rw [if_neg hcanon] at h
      exact Option.noConfusion h
  · exact Option.noConfusion h

theorem remove_unfold_none (S : KvStore) {k : Bytes} (h : lookupIdx S.indexes k = none) :
    S.remove k = some (S, .error .KeyNotFound) := by
  unfold KvStore.remove
  rw [h]

theorem remove_unfold_some (S : KvStore) {k : Bytes} {e : DataIndex}
    (h : lookupIdx S.indexes k = some e) (hr : e.n ∈ S.readers) :
    S.remove k = some ({ S with
      indexes := eraseIdx S.indexes k,
      uncompacted := S.uncompacted + e.len,
      files := remove_item S.files e.n e.pos }, .ok ()) := by
  unfold KvStore.remove
  simp only [h, if_pos hr]

theorem get_unfold_none (S : KvStore) {k : Bytes} (h : lookupIdx S.indexes k = none) :
    S.get k = some (.error .KeyNotFound) := by
  unfold KvStore.get
  rw [h]

theorem set_components (S : KvStore) (k v : Bytes) (t : Nat) :
    (S.set k v t).indexes = insertIdx S.indexes k
      ⟨S.nth, ((lookupF S.files S.nth).getD []).length,
       (16 + (k.length + v.length) % 2 ^ 32) % 2 ^ 32, t⟩ ∧
    (S.set k v t).readers = S.readers ∧ (S.set k v t).nth = S.nth := by
  unfold KvStore.set
  cases hold : lookupIdx S.indexes k with
  | none => exact ⟨rfl, rfl, rfl⟩
  | some old => exact ⟨rfl, rfl, rfl⟩

/-- C1: the spec says a mutating call crossing the compaction threshold runs
the Compactor and resets `uncompacted` to zero, keeping it at most the
threshold after every completed `set` or `remove`.  The code declares
`COMPACTION_THRESHOLD` but never invokes any compaction: `uncompacted` is
monotone under `set` and `remove`, so once it exceeds the threshold a
completed `set` leaves it above the threshold. -/
theorem C1_no_compaction (S : KvStore) (k v : Bytes) (t : Nat) :
    S.uncompacted ≤ (S.set k v t).uncompacted ∧
    (∀ S2 r, S.remove k = some (S2, r) → S.uncompacted ≤ S2.uncompacted) ∧
    (COMPACTION_THRESHOLD < S.uncompacted →
      COMPACTION_THRESHOLD < (S.set k v t).uncompacted) := by
  have hset : S.uncompacted ≤ (S.set k v t).uncompacted := by
    cases hold : lookupIdx S.indexes k with
    | none =>
        obtain ⟨h1, -, -⟩ := set_uncompacted_fresh S hold v t
        omega
    | some old =>
        obtain ⟨h1, -, -⟩ := set_uncompacted_superseded S hold v t
        omega
  refine ⟨hset, ?_, fun h => by omega⟩
  intro S2 r h
  unfold KvStore.remove at h
  cases hold : lookupIdx S.indexes k with
  | none =>
      simp only [hold, Option.some.injEq, Prod.mk.injEq] at h
      obtain ⟨rfl, -⟩ := h
      exact Nat.le_refl _
  | some e =>
      simp only [hold] at h
      by_cases hro : e.n ∈ S.readers
      · simp only [if_pos hro, Option.some.injEq, Prod.mk.injEq] at h
        obtain ⟨rfl, -⟩ := h
        show S.uncompacted ≤ S.uncompacted + e.len
        omega
      · simp only [if_neg hro] at h
        exact Option.noConfusion h

/-- Witness for C1 at a store already past the threshold. -/
theorem C1_no_compaction_witness :
    COMPACTION_THRESHOLD < (2 ^ 21 : Nat) ∧
    COMPACTION_THRESHOLD <
      ((KvStore.mk 1 [1] [] [(1, [])] (2 ^ 21)).set [97] [98] 5).uncompacted :=
  ⟨by decide,
   (C1_no_compaction (KvStore.mk 1 [1] [] [(1, [])] (2 ^ 21)) [97] [98] 5).2.2 (by decide)⟩

/-- C2: on a well-formed open store, `set(k, v)` followed by `get(k)`
returns exactly `v`, including the empty value; the bound keeps the `u32`
record-length arithmetic exact. -/
theorem C2_set_then_get (S : KvStore) (G : List (Nat × List Rec)) (hwf : WF S G)
    (k v : Bytes) (t : Nat) (hkv : k.length + v.length + 17 ≤ 2 ^ 32) :
    (S.set k v t).get k = some (.ok (some v)) :=
  set_get_core S G hwf k v t hkv

/-- Witness for C2 on the freshly opened store with the empty value. -/
theorem C2_set_then_get_witness :
    (store0.set [97] [] 3).get [97] = some (.ok (some [])) :=
  C2_set_then_get store0 ghost0 wf_store0 [97] [] 3 (by decide)

/-- C3: the collision step of the replay loop in `open`.  When a record
read during replay finds an earlier index entry for its key, the code adds
the old entry's length to `uncompacted`, replaces the entry, and zeroes the
old record through the reader handle of its generation — but only if such a
handle exists (the old record lies in an earlier segment); for a
same-segment duplicate no handle exists yet and `open` panics. -/
theorem C3_replay_collision (gen : Nat) (c : Bytes) (fuel pos : Nat) (st : ReplaySt)
    (k : Bytes) (d : DataIndex) (pos2 : Nat) (v : DataIndex)
    (hread : read_item gen c pos = some ((k, d), pos2))
    (ht : d.timestamp ≠ 0)
    (hv : lookupIdx st.idx k = some v) :
    replayFuel gen c (fuel + 1) pos st =
      if v.n ∈ st.readers then
        replayFuel gen c fuel pos2
          { st with
            files := remove_item st.files v.n v.pos,
            idx := insertIdx st.idx k d,
            unc := st.unc + v.len }
      else none := by
  rw [replayFuel]
  simp only [hread, if_neg ht, hv]

/-- Witness for C3: a collision whose earlier entry lies in an already
replayed segment (its generation has a reader handle). -/
theorem C3_replay_collision_witness :
    read_item 2 (Rec.enc ⟨5, [97], [50]⟩) 0 = some (([97], ⟨2, 0, 18, 5⟩), 18) ∧
    replayFuel 2 (Rec.enc ⟨5, [97], [50]⟩) 1 0 ⟨[], [1], [([97], ⟨1, 0, 17, 3⟩)], 0⟩ =
      if (⟨1, 0, 17, 3⟩ : DataIndex).n ∈ [1] then
        replayFuel 2 (Rec.enc ⟨5, [97], [50]⟩) 0 18
          ⟨remove_item [] 1 0, [1], insertIdx [([97], ⟨1, 0, 17, 3⟩)] [97] ⟨2, 0, 18, 5⟩,
           0 + 17⟩
      else none :=
  ⟨rfl,
   C3_replay_collision 2 (Rec.enc ⟨5, [97], [50]⟩) 0 0
     ⟨[], [1], [([97], ⟨1, 0, 17, 3⟩)], 0⟩ [97] ⟨2, 0, 18, 5⟩ 18 ⟨1, 0, 17, 3⟩
     rfl (by decide) rfl⟩

/-- Counterexample for C3: two live records with the same key inside one
segment make `open` panic (`readers.get_mut(&v.n).unwrap()` on a generation
whose handle is only registered after its replay loop), instead of
completing with a zeroed predecessor. -/
theorem C3_replay_collision_counterexample :
    openA [(1, encFile [⟨1, [97], [49]⟩, ⟨2, [97], [50]⟩])] = none := by
  rfl

/-- C4: a store opened on an empty directory and driven by any sequence of
(in-bounds) `set`/`remove`/`get` operations is observably equivalent to the
store obtained by reopening the resulting directory: `get` agrees on every
key. -/
theorem C4_reopen_equiv (ops : List Op) (hok : ∀ op ∈ ops, OpOK op) :
    openA [] = some store0 ∧
    ∃ S S2, exec store0 ops = some S ∧ openA S.files = some S2 ∧
      ∀ k2, S2.get k2 = S.get k2 := by
  refine ⟨openA_nil, ?_⟩
  obtain ⟨S, G2, hex, hwf⟩ := exec_wf ops store0 ghost0 wf_store0 hok
  obtain ⟨S2, hopen, heq⟩ := openA_get_eq S G2 hwf
  exact ⟨S, S2, hex, hopen, heq⟩

/-- Witness for C4 on a single `set`. -/
theorem C4_reopen_equiv_witness :
    (∀ op ∈ ([Op.setOp [97] [98] 5] : List Op), OpOK op) ∧
    (openA [] = some store0 ∧
      ∃ S S2, exec store0 [Op.setOp [97] [98] 5] = some S ∧ openA S.files = some S2 ∧
        ∀ k2, S2.get k2 = S.get k2) := by
  have hok : ∀ op ∈ ([Op.setOp [97] [98] 5] : List Op), OpOK op := by
    intro op hop
    rw [List.mem_singleton] at hop
    subst hop
    exact ⟨by decide, by decide, by decide⟩
  exact ⟨hok, C4_reopen_equiv [Op.setOp [97] [98] 5] hok⟩

/-- C5: `remove` on an absent key returns `Err(KeyNotFound)` and leaves the
store unchanged; after `set(k, v)` then `remove(k)`, both `get(k)` and a
second `remove(k)` report `KeyNotFound` (under the maintained invariants
that the index keys are distinct and the active generation has a reader
handle). -/
theorem C5_remove_missing (S : KvStore) (k v : Bytes) (t : Nat)
    (hnd : IdxNodup S.indexes) (hnth : S.nth ∈ S.readers) :
    (lookupIdx S.indexes k = none → S.remove k = some (S, .error .KeyNotFound)) ∧
    ∃ S2, (S.set k v t).remove k = some (S2, .ok ()) ∧
      S2.get k = some (.error .KeyNotFound) ∧
      S2.remove k = some (S2, .error .KeyNotFound) := by
  obtain ⟨hidx1, hrd1, hnth1⟩ := set_components S k v t
  constructor
  · intro hnone
    exact remove_unfold_none S hnone
  · have hlk1 : lookupIdx (S.set k v t).indexes k = some
        ⟨S.nth, ((lookupF S.files S.nth).getD []).length,
         (16 + (k.length + v.length) % 2 ^ 32) % 2 ^ 32, t⟩ := by
      rw [hidx1]
      exact lookupIdx_insertIdx_self _ _ _
    have hro : (⟨S.nth, ((lookupF S.files S.nth).getD []).length,
        (16 + (k.length + v.length) % 2 ^ 32) % 2 ^ 32, t⟩ : DataIndex).n ∈
        (S.set k v t).readers := by
      rw [hrd1]
      exact hnth
    have hnd1 : IdxNodup (S.set k v t).indexes := by
      rw [hidx1]
      exact idxNodup_insertIdx _ _ _ hnd
    have hrm := remove_unfold_some (S.set k v t) hlk1 hro
    have hgone : lookupIdx (eraseIdx (S.set k v t).indexes k) k = none :=
      lookupIdx_eraseIdx_self _ _ hnd1
    refine ⟨_, hrm, ?_, ?_⟩
    · apply get_unfold_none
      exact hgone
    · apply remove_unfold_none
      exact hgone

/-- Witness for C5 on the freshly opened store. -/
theorem C5_remove_missing_witness :
    IdxNodup store0.indexes ∧ store0.nth ∈ store0.readers ∧
    ((lookupIdx store0.indexes [97] = none →
        store0.remove [97] = some (store0, .error .KeyNotFound)) ∧
      ∃ S2, (store0.set [97] [98] 5).remove [97] = some (S2, .ok ()) ∧
        S2.get [97] = some (.error .KeyNotFound) ∧
        S2.remove [97] = some (S2, .error .KeyNotFound)) :=
  ⟨List.nodup_nil, by decide, C5_remove_missing store0 [97] [98] 5 List.nodup_nil (by decide)⟩

/-- C6: after `set(k, v1)` then `set(k, v2)` on a well-formed store whose
index does not yet hold `k`, `get(k)` returns `v2` and `uncompacted` grows
by exactly the encoded length of the superseded record
(16-byte header plus key and value lengths). -/
theorem C6_superseded_accounting (S : KvStore) (G : List (Nat × List Rec)) (hwf : WF S G)
    (k v1 v2 : Bytes) (t1 t2 : Nat)
    (hfresh : lookupIdx S.indexes k = none)
    (ht1 : 0 < t1) (ht1b : t1 < 2 ^ 64)
    (hkv1 : k.length + v1.length + 17 ≤ 2 ^ 32)
    (hkv2 : k.length + v2.length + 17 ≤ 2 ^ 32) :
    ((S.set k v1 t1).set k v2 t2).get k = some (.ok (some v2)) ∧
    ((S.set k v1 t1).set k v2 t2).uncompacted =
      S.uncompacted + (16 + k.length + v1.length) := by
  obtain ⟨G1, hwf1⟩ := wf_set S G hwf k v1 t1 ht1 ht1b hkv1
  constructor
  · exact set_get_core (S.set k v1 t1) G1 hwf1 k v2 t2 hkv2
  · obtain ⟨hidx1, hrd1, hnth1⟩ := set_components S k v1 t1
    have hlk1 : lookupIdx (S.set k v1 t1).indexes k = some
        ⟨S.nth, ((lookupF S.files S.nth).getD []).length,
         (16 + (k.length + v1.length) % 2 ^ 32) % 2 ^ 32, t1⟩ := by
      rw [hidx1]
      exact lookupIdx_insertIdx_self _ _ _
    obtain ⟨hu2, -, -⟩ := set_uncompacted_superseded (S.set k v1 t1) hlk1 v2 t2
    rw [hu2]
    obtain ⟨hu1, -, -⟩ := set_uncompacted_fresh S hfresh v1 t1
    rw [hu1]
    show S.uncompacted + (16 + (k.length + v1.length) % 2 ^ 32) % 2 ^ 32 =
      S.uncompacted + (16 + k.length + v1.length)
    rw [set_len_eq hkv1]

/-- Witness for C6 on the freshly opened store. -/
theorem C6_superseded_accounting_witness :
    ((store0.set [97] [1, 2] 3).set [97] [3] 4).get [97] = some (.ok (some [3])) ∧
    ((store0.set [97] [1, 2] 3).set [97] [3] 4).uncompacted =
      store0.uncompacted + (16 + ([97] : Bytes).length + ([1, 2] : Bytes).length) :=
  C6_superseded_accounting store0 ghost0 wf_store0 [97] [1, 2] [3] 3 4 rfl
    (by decide) (by decide) (by decide) (by decide)

/-- C7: a record read fails when fewer than 16 header bytes remain, or when
the key bytes would run past end of file; a failed read stops the replay of
the segment, keeping the state (hence the index entries) built so far, and
the loop returns normally rather than aborting `open`.  (The value is only
skipped by seeking, so a value size pointing past end of file does NOT make
the read fail — see the counterexample.) -/
theorem C7_corrupt_tail (gen : Nat) (c : Bytes) (pos : Nat) (st : ReplaySt) (fuel : Nat) :
    (c.length < pos + 16 → read_item gen c pos = none) ∧
    (pos + 16 ≤ c.length → c.length < pos + 16 + fromLE ((c.drop (pos + 8)).take 4) →
      read_item gen c pos = none) ∧
    (read_item gen c pos = none → replayFuel gen c (fuel + 1) pos st = some st) :=
  ⟨fun h => read_item_short h,
   fun h1 h2 => read_item_keyPastEof h1 h2,
   fun h => replayFuel_stop fuel h⟩

/-- Witness for C7: a truncated header, a key overrunning the file, and the
stopped replay returning the accumulated state. -/
theorem C7_corrupt_tail_witness :
    read_item 1 [] 0 = none ∧
    read_item 1 (toLE 8 1 ++ toLE 4 9 ++ toLE 4 0) 0 = none ∧
    replayFuel 1 [] 1 0 ⟨[], [], [], 0⟩ = some ⟨[], [], [], 0⟩ :=
  ⟨(C7_corrupt_tail 1 [] 0 ⟨[], [], [], 0⟩ 0).1 (by decide),
   (C7_corrupt_tail 1 (toLE 8 1 ++ toLE 4 9 ++ toLE 4 0) 0 ⟨[], [], [], 0⟩ 0).2.1
     (by decide) (by decide),
   (C7_corrupt_tail 1 [] 0 ⟨[], [], [], 0⟩ 0).2.2 rfl⟩

/-- Counterexample for C7: a 16-byte segment whose header declares a 5-byte
value lying entirely past end of file is decoded successfully (the value is
skipped by `seek`, never read), contradicting the claim that header lengths
reading past end of file fail with `CorruptRecord`. -/
theorem C7_corrupt_tail_counterexample :
    read_item 9 (toLE 8 1 ++ toLE 4 0 ++ toLE 4 5) 0 = some (([], ⟨9, 0, 21, 1⟩), 21) := by
  rfl

/-- C8: the new active generation chosen by `open` is strictly greater than
the generation of every NON-EMPTY segment file of the directory (such
segments are replayed and pushed onto `vec`, whose sorted maximum plus one
becomes the active generation).  Empty segments are deleted and excluded
from the maximum — see the counterexample. -/
theorem C8_active_generation (segs : List (Nat × Bytes)) (S : KvStore)
    (hopen : openA segs = some S)
    (g : Nat) (c : Bytes) (hg : lookupF segs g = some c) (hc : c.length ≠ 0) :
    g < S.nth := by
  unfold openA openCore at hopen
  cases hrun : openLoop (List.insertionSort (fun a b => a ≤ b) (segs.map Prod.fst))
      segs [] [] 0 [] with
  | none =>
      rw [hrun] at hopen
      exact Option.noConfusion hopen
  | some out =>
      obtain ⟨fs2, rd2, idx2, unc2, vec2⟩ := out
      simp only [hrun] at hopen
      have hmem : g ∈ List.insertionSort (fun a b => a ≤ b) (segs.map Prod.fst) := by
        rw [(List.perm_insertionSort (fun a b => a ≤ b) (segs.map Prod.fst)).mem_iff]
        exact mem_keys_lookupF.2 (by rw [hg]; rfl)
      have hvec := openLoop_nonempty_mem g _ segs [] [] 0 [] fs2 rd2 idx2 unc2 vec2 hrun
        (Or.inl hmem) ⟨c, hg, hc⟩
      have hle := mem_le_sort_getLastD hvec
      have hnth : S.nth = (List.insertionSort (fun a b => a ≤ b) vec2).getLastD 0 + 1 := by
        rw [← Option.some_inj.1 hopen]
      omega

/-- Witness for C8 on a directory with one non-empty segment. -/
theorem C8_active_generation_witness :
    (Rec.enc ⟨1, [97], [98]⟩).length ≠ 0 ∧
    ∃ S, openA [(3, Rec.enc ⟨1, [97], [98]⟩)] = some S ∧ 3 < S.nth := by
  refine ⟨by decide, _, rfl, ?_⟩
  exact C8_active_generation [(3, Rec.enc ⟨1, [97], [98]⟩)] _ rfl 3 _ rfl (by decide)

/-- Counterexample for C8: with a non-empty segment 1 and an empty segment 2
in the directory, `open` deletes segment 2 and picks active generation 2 —
not the maximum existing generation plus one, and not strictly greater than
every segment found in the directory. -/
theorem C8_active_generation_counterexample :
    ∃ S, openA [(1, Rec.enc ⟨1, [97], [98]⟩), (2, [])] = some S ∧
      S.nth = 2 ∧ ¬ (2 < S.nth) :=
  ⟨_, rfl, rfl, by decide⟩

/-- C9: a directory entry with a valid-Unicode name that does not parse as
a generation (after stripping every trailing `".log"`) is ignored by
`open`: it contributes no generation to the scan and is not addressable as
a segment file, so `open` behaves as if the file were absent.  (Names that
are not valid Unicode instead make `open` panic — see the
counterexample.) -/
theorem C9_non_segment_ignored (s : String) (c : Bytes) (d : List (FileName × Bytes))
    (h : parseGen s = none) :
    openDir ((.txt s, c) :: d) = openDir d := by
  have hex : exactLog s = none := by
    cases hx : exactLog s with
    | none => rfl
    | some m =>
        rw [exactLog_some_parseGen hx] at h
        exact Option.noConfusion h
  unfold openDir
  have he : entriesOf ((FileName.txt s, c) :: d) = entriesOf d := by
    show (entriesOf d).map (fun l => (parseGen s).toList ++ l) = entriesOf d
    rw [h]
    cases entriesOf d <;> simp
  have hsf : segFilesOf ((FileName.txt s, c) :: d) = segFilesOf d := by
    simp [segFilesOf, List.filterMap_cons, hex]
  rw [he, hsf]

/-- Witness for C9: a file named `"lock"` is ignored by `open`. -/
theorem C9_non_segment_ignored_witness :
    parseGen "lock" = none ∧
    openDir [(FileName.txt "lock", [1, 2, 3])] = openDir [] :=
  ⟨rfl, C9_non_segment_ignored "lock" [1, 2, 3] [] rfl⟩

/-- Counterexample for C9: a directory entry whose name is not valid
Unicode makes `open` panic (`to_str().unwrap()`), instead of being
tolerated and ignored as the claim states. -/
theorem C9_non_segment_ignored_counterexample :
    openDir [(FileName.nonUnicode, [])] = none := by
  rfl

/-- C10: in every store reachable by `open` on any directory followed by
any successful sequence of `set`, `get` and `remove` operations (the model
reaches a superset of the program's states, so the invariant transfers),
every index entry's generation has an open reader handle; consequently the
no-reader `Ok(None)` branch of `get` is unreachable on an indexed key and
`remove` never fails its reader-handle lookup.  The claim's stronger
consequence that `get` on an indexed key always RETURNS a value is false:
`get` can still panic in `read_to_string().unwrap()` on stored value bytes
that are not valid UTF-8, which replay never validates — see the
counterexample. -/
theorem C10_readers_cover_index (d : List (FileName × Bytes)) (ops : List Op)
    (S0 S : KvStore) (hopen : openDir d = some S0) (hexec : exec S0 ops = some S) :
    ∀ k e, lookupIdx S.indexes k = some e →
      e.n ∈ S.readers ∧ S.get_utf8 k ≠ some (.ok none) ∧ S.remove k ≠ none := by
  have hinv0 : Inv S0 := by
    unfold openDir at hopen
    cases he : entriesOf d with
    | none =>
        rw [he] at hopen
        exact Option.noConfusion hopen
    | some es =>
        simp only [he] at hopen
        exact openCore_inv es (segFilesOf d) S0 hopen
  have hinv : Inv S := inv_exec ops S0 hinv0 S hexec
  intro k e he
  obtain ⟨hrd, c0, hc0, hb0⟩ := hinv.ent (k, e) (lookupIdx_mem he)
  refine ⟨hrd, ?_, ?_⟩
  · unfold KvStore.get_utf8
    simp only [he, if_pos hrd]
    rw [hc0]
    simp only [Option.getD_some]
    rw [if_pos hb0]
    split
    · split
      · intro hcon
        simp at hcon
      · exact fun hcon => Option.noConfusion hcon
    · exact fun hcon => Option.noConfusion hcon
  · unfold KvStore.remove
    simp only [he, if_pos hrd]
    simp

/-- Witness for C10: open on the empty directory followed by one `set`. -/
theorem C10_readers_cover_index_witness :
    openDir [] = some store0 ∧
    exec store0 [Op.setOp [97] [98] 5] = some (store0.set [97] [98] 5) ∧
    ∀ k e, lookupIdx (store0.set [97] [98] 5).indexes k = some e →
      e.n ∈ (store0.set [97] [98] 5).readers ∧
      (store0.set [97] [98] 5).get_utf8 k ≠ some (.ok none) ∧
      (store0.set [97] [98] 5).remove k ≠ none :=
  ⟨rfl, rfl, C10_readers_cover_index [] [Op.setOp [97] [98] 5] store0
    (store0.set [97] [98] 5) rfl rfl⟩

/-- Counterexample for C10: opening a directory whose one segment holds the
record `{t = 1, key = "a", value = 0xFF}` succeeds (replay seeks past the
value without validating it) and indexes the key, but `get` of that key
does not return a value — `take(vsize).read_to_string(&mut s).unwrap()`
panics on the non-UTF-8 byte `0xFF`. -/
theorem C10_readers_cover_index_counterexample :
    ∃ S, openDir [(FileName.txt "1.log", Rec.enc ⟨1, [97], [255]⟩)] = some S ∧
      (lookupIdx S.indexes [97]).isSome ∧ S.get_utf8 [97] = none :=
  ⟨_, rfl, rfl, rfl⟩

end KvProof
